import Mathlib

/-!
# Verification of the Sovereign snapshot-storage core

Shallow embedding of the two-layer storage engine of the Sovereign SDK:
the schematized persistent store (`sov-schema-db/src/lib.rs`) and the
snapshot manager resolving queries across ancestor chains of frozen
snapshots (`sov-prover-storage-manager/src/snapshot_manager.rs`).

Keys are byte strings (`Vec<u8>` in the source) compared lexicographically;
the algorithms only use that comparison, so the embedding is parametric in a
key type `K` with a linear order.  Values are opaque byte strings, parametric
in `V`; the pluggable key/value codec is out of scope per the spec, so
decoding is the identity.

The `snapshot` and `iterator` modules of `sov-schema-db` (types
`Operation`, `FrozenDbSnapshot`, `SchemaBatchIterator`,
`RawDbReverseIterator`) are not part of the sources at hand; those
definitions are modelled from the spec (sections 3, 4.1, 4.3) and marked as
such. Everything else is translated from the Rust sources.
-/

namespace Sovereign

/-- Modelled from the spec (section 3): `Operation` is a tagged value, either
`Put(value bytes)` or `Delete` — one mutation to one key within one Schema.
(Declared in the `sov-schema-db` snapshot module, not among the sources.) -/
inductive Operation (V : Type) where
  | put (value : V)
  | delete
deriving DecidableEq, Repr

/-- Association-list lookup, modelling `HashMap::get` / keyed search:
the value of the first entry whose key equals `k`. -/
def entLookup {K : Type} [DecidableEq K] {α : Type} (l : List (K × α)) (k : K) :
    Option α :=
  (l.find? (fun e => decide (e.1 = k))).map (fun e => e.2)

/-- `SnapshotId`: process-unique opaque identifier (a `u64` in the source). -/
abbrev SnapshotId := Nat

/-- Modelled from the spec (section 4.3): a frozen snapshot is an immutable
per-Schema sorted structure supporting point lookup of an `Operation` by key
and sorted iteration of `(key, Operation)` pairs.  `entries` is its
descending iteration: strictly descending by key when well-formed. -/
structure FrozenDbSnapshot (K V : Type) where
  entries : List (K × Operation V)
deriving DecidableEq, Repr

/-- Modelled from the spec (section 4.3): `lookup(key) -> optional Operation`. -/
def FrozenDbSnapshot.get {K V : Type} [DecidableEq K]
    (s : FrozenDbSnapshot K V) (k : K) : Option (Operation V) :=
  entLookup s.entries k

/-- Modelled from the spec (section 4.3): descending `(key, Operation)`
iteration of the frozen snapshot (`SchemaBatchIterator`). -/
def FrozenDbSnapshot.iter {K V : Type} (s : FrozenDbSnapshot K V) :
    List (K × Operation V) :=
  s.entries

/-- The persistent store (`sov_schema_db::DB`), restricted to one column
family as every `get::<S>`/`iter::<S>` of the manager is.  `entries` is the
store's content listed in descending key order (the view of
`RawDbReverseIterator`); `writeOk` models the environment: whether the
underlying engine's atomic write succeeds or reports an I/O error. -/
structure DB (K V : Type) where
  entries : List (K × V)
  writeOk : Bool
deriving DecidableEq, Repr

/-- `DB::get`: point lookup in the store (decoding is the identity here). -/
def DB.get {K V : Type} [DecidableEq K] (db : DB K V) (k : K) : Option V :=
  entLookup db.entries k

/-- `DB::raw_iter`: the store's descending iteration
(`RawDbReverseIterator`, modelled from the spec section 4.1). -/
def DB.raw_iter {K V : Type} (db : DB K V) : List (K × V) :=
  db.entries

/-- `SnapshotManager` (snapshot_manager.rs lines 17-22): the persistent
store, the registry of frozen snapshots (`snapshots: HashMap`), and the
shared child-to-parent `SnapshotGraph` (`to_parent`). -/
structure SnapshotManager (K V : Type) where
  db : DB K V
  snapshots : List (SnapshotId × FrozenDbSnapshot K V)
  to_parent : List (SnapshotId × SnapshotId)
deriving Repr

/-- Result of an operation that can hit the `expect`/`panic!` branch. -/
inductive Outcome (α : Type) where
  | ok (a : α)
  | panic
deriving DecidableEq, Repr

/-- `SnapshotManager::get` (snapshot_manager.rs lines 198-221): walk the
parent chain of `snapshot_id`; the first ancestor whose frozen snapshot
mentions the key decides (`Put` → `Some`, `Delete` → `None`); an ancestor in
the graph but not in the registry panics; an exhausted chain delegates to
the store.  The Rust `while let` loop is embedded with `fuel`; `none` means
the fuel was insufficient (the source loop has no bound; every theorem
supplies enough fuel for the chain at hand). -/
def SnapshotManager.get {K V : Type} [DecidableEq K] (fuel : Nat)
    (m : SnapshotManager K V) (snapshot_id : SnapshotId) (k : K) :
    Option (Outcome (Option V)) :=
  match fuel with
  | 0 => none
  | fuel + 1 =>
    match entLookup m.to_parent snapshot_id with
    | none => some (.ok (m.db.get k))
    | some parent =>
      match entLookup m.snapshots parent with
      | none => some .panic
      | some snap =>
        match snap.get k with
        | some (.put v) => some (.ok (some v))
        | some .delete => some (.ok none)
        | none => SnapshotManager.get fuel m parent k

/-- `isChain tp id l`: `l` is the full ancestor chain of `id` in the
snapshot graph `tp` — `tp` maps `id` to `l.head`, each element to its
successor, and the last element has no parent. -/
def isChain (tp : List (SnapshotId × SnapshotId)) :
    SnapshotId → List SnapshotId → Prop
  | id, [] => entLookup tp id = none
  | id, p :: rest => entLookup tp id = some p ∧ isChain tp p rest

instance isChainDecidable (tp : List (SnapshotId × SnapshotId)) :
    (id : SnapshotId) → (l : List SnapshotId) → Decidable (isChain tp id l)
  | _, [] => by unfold isChain; infer_instance
  | _, p :: rest =>
    haveI := isChainDecidable tp p rest
    by unfold isChain; infer_instance

/-- The resolution described by the spec for `get`: the first snapshot in
the chain (nearest ancestor first) that mentions the key decides, else the
persistent store does. -/
def chainResolve {K V : Type} [DecidableEq K]
    (snaps : List (FrozenDbSnapshot K V)) (db : DB K V) (k : K) : Option V :=
  match snaps.findSome? (fun s => s.get k) with
  | some (Operation.put v) => some v
  | some Operation.delete => none
  | none => db.get k

/-- `getPanics reg k l = true` iff, walking the snapshot chain `l` looking
up key `k`, the walk runs into an ancestor missing from the registry `reg`
(ancestors past an ancestor that mentions `k` are never encountered). -/
def getPanics {K V : Type} [DecidableEq K]
    (reg : List (SnapshotId × FrozenDbSnapshot K V)) (k : K) :
    List SnapshotId → Bool
  | [] => false
  | p :: rest =>
    match entLookup reg p with
    | none => true
    | some s =>
      match s.get k with
      | some _ => false
      | none => getPanics reg k rest

/-! ## Batches and the persistent write path (`sov-schema-db/src/lib.rs`) -/

/-- `WriteOp` (lib.rs lines 39-43): one recorded mutation in a batch. -/
inductive WriteOp (K V : Type) where
  | value (key : K) (val : V)
  | deletion (key : K)
deriving DecidableEq, Repr

/-- The key a `WriteOp` mutates. -/
def WriteOp.key {K V : Type} : WriteOp K V → K
  | .value k _ => k
  | .deletion k => k

/-- Column family names (`&'static str` in the source). -/
abbrev ColumnFamilyName := String

/-- Errors of the storage layer: `commit_snapshot`'s bail on an unknown id,
the missing-column-family error of `get_cf_handle`, and an I/O error of the
underlying engine's write. -/
inductive DbError where
  | unknownSnapshot
  | missingFamily
  | ioError
deriving DecidableEq, Repr

/-- Applying one `WriteOp` to the (descending sorted) content of one column
family, as the underlying engine does: `put` overwrites or inserts keeping
the order, `delete` removes the key. -/
def applyOp {K V : Type} [LinearOrder K] (st : List (K × V)) :
    WriteOp K V → List (K × V)
  | .value k v => insertSorted k v st
  | .deletion k => st.filter (fun e => decide (e.1 ≠ k))
where
  /-- Insert into a strictly-descending association list, replacing an
  existing binding of the same key. -/
  insertSorted (k : K) (v : V) : List (K × V) → List (K × V)
    | [] => [(k, v)]
    | (k', v') :: t =>
      if k' < k then (k, v) :: (k', v') :: t
      else if k = k' then (k, v) :: t
      else (k', v') :: insertSorted k v t

/-- Replaying a list of `WriteOp`s in recorded order (the loop body of
`DB::write_schemas`, lib.rs lines 241-246, combined with the engine's
application of the resulting atomic batch). -/
def applyOps {K V : Type} [LinearOrder K] (ops : List (WriteOp K V))
    (st : List (K × V)) : List (K × V) :=
  ops.foldl applyOp st

/-- `SchemaBatch` (lib.rs lines 45-50): a per-family ordered collection of
`WriteOp`s (`rows: HashMap<ColumnFamilyName, Vec<WriteOp>>`). -/
structure SchemaBatch (K V : Type) where
  rows : List (ColumnFamilyName × List (WriteOp K V))
deriving Repr

/-- The `entry(cf).or_insert_with(Vec::new).push(op)` idiom of
`SchemaBatch::put`/`delete`. -/
def pushRow {K V : Type} (rows : List (ColumnFamilyName × List (WriteOp K V)))
    (cf : ColumnFamilyName) (op : WriteOp K V) :
    List (ColumnFamilyName × List (WriteOp K V)) :=
  match entLookup rows cf with
  | some _ => rows.map (fun e => if e.1 = cf then (e.1, e.2 ++ [op]) else e)
  | none => rows ++ [(cf, [op])]

/-- `SchemaBatch::put` (lib.rs lines 66-81): record an insert/update. -/
def SchemaBatch.put {K V : Type} (b : SchemaBatch K V)
    (cf : ColumnFamilyName) (key : K) (val : V) : SchemaBatch K V :=
  { rows := pushRow b.rows cf (.value key val) }

/-- `SchemaBatch::delete` (lib.rs lines 83-94): record a delete. -/
def SchemaBatch.delete {K V : Type} (b : SchemaBatch K V)
    (cf : ColumnFamilyName) (key : K) : SchemaBatch K V :=
  { rows := pushRow b.rows cf (.deletion key) }

/-- The rows a batch recorded for one column family. -/
def SchemaBatch.rowsOf {K V : Type} (b : SchemaBatch K V)
    (cf : ColumnFamilyName) : List (WriteOp K V) :=
  (entLookup b.rows cf).getD []

/-- The multi-family persistent store as `DB::write_schemas` sees it. -/
structure FamilyDB (K V : Type) where
  families : List (ColumnFamilyName × List (K × V))
  writeOk : Bool
deriving Repr

/-- `DB::write_schemas` (lib.rs lines 232-272): for every family of the
batch resolve the column-family handle (missing family errors out), replay
that family's rows in recorded order into one atomic engine batch, then
perform the engine write (which can fail with an I/O error). -/
def FamilyDB.write_schemas {K V : Type} [LinearOrder K] (db : FamilyDB K V)
    (batch : SchemaBatch K V) : Except DbError (FamilyDB K V) :=
  if batch.rows.all (fun r => (entLookup db.families r.1).isSome) then
    if db.writeOk then
      .ok { db with
            families := batch.rows.foldl
              (fun fams r =>
                fams.map (fun e =>
                  if e.1 = r.1 then (e.1, applyOps r.2 e.2) else e))
              db.families }
    else .error .ioError
  else .error .missingFamily

/-- The last recorded operation of `ops` that mutates `k`, the authoritative
one under last-write-wins. -/
def lastMention {K V : Type} [DecidableEq K] (ops : List (WriteOp K V))
    (k : K) : Option (WriteOp K V) :=
  ops.reverse.find? (fun op => decide (op.key = k))

/-! ## Commit (`snapshot_manager.rs`) -/

/-- `DB::write_schemas` restricted to the single column family of the schema
under consideration (the projection the `SnapshotManager` operates on): the
family's handle always exists, so only the engine write can fail. -/
def DB.write_schemas {K V : Type} [LinearOrder K] (db : DB K V)
    (ops : List (WriteOp K V)) : Except DbError (DB K V) :=
  if db.writeOk then .ok { db with entries := applyOps ops db.entries }
  else .error .ioError

/-- Modelled from the spec (section 4.4 / glossary): `snapshot.into()`
converts a frozen snapshot into the write batch of its operations. -/
def FrozenDbSnapshot.intoBatch {K V : Type} (s : FrozenDbSnapshot K V) :
    List (WriteOp K V) :=
  s.entries.map (fun e =>
    match e.2 with
    | .put v => WriteOp.value e.1 v
    | .delete => WriteOp.deletion e.1)

/-- `HashMap::remove` on an association list. -/
def entRemove {K : Type} [DecidableEq K] {α : Type} (l : List (K × α))
    (k : K) : List (K × α) :=
  l.filter (fun e => decide (e.1 ≠ k))

/-- `SnapshotManager::contains_snapshot` (snapshot_manager.rs lines 61-63). -/
def SnapshotManager.contains_snapshot {K V : Type}
    (m : SnapshotManager K V) (snapshot_id : SnapshotId) : Bool :=
  (entLookup m.snapshots snapshot_id).isSome

/-- `SnapshotManager::commit_snapshot` (snapshot_manager.rs lines 47-54):
bail with an error when the id is unknown; otherwise *remove* the snapshot
from the registry (that is how the owned snapshot is obtained) and write its
operations through `DB::write_schemas`, returning that result unchanged.
The pair returned is (result, manager state after the call), mirroring
`&mut self`. -/
def SnapshotManager.commit_snapshot {K V : Type} [LinearOrder K]
    (m : SnapshotManager K V) (snapshot_id : SnapshotId) :
    Except DbError Unit × SnapshotManager K V :=
  match entLookup m.snapshots snapshot_id with
  | none => (.error .unknownSnapshot, m)
  | some snapshot =>
    let m' : SnapshotManager K V :=
      { m with snapshots := entRemove m.snapshots snapshot_id }
    match m'.db.write_schemas snapshot.intoBatch with
    | .ok db' => (.ok (), { m' with db := db' })
    | .error e => (.error e, m')

/-! ## The N-way descending merge (`SnapshotManagerIter`) -/

/-- `DataLocation` (snapshot_manager.rs lines 111-116): which source a
peeked key came from — the store's iterator or the snapshot iterator at a
given index. -/
inductive DataLocation where
  | db
  | snapshot (idx : Nat)
deriving DecidableEq, Repr

/-- The `for (idx, iter) in self.snapshot_iterators.iter_mut().enumerate()`
loop of `SnapshotManagerIter::next` (snapshot_manager.rs lines 130-148):
collect into `acc` the locations of all peeked heads equal to the greatest
peeked key, scanning the snapshot iterators in index order; a strictly
greater head restarts the collection, an equal head is appended, a smaller
one is skipped. -/
def collectMaxAux {K V : Type} [LinearOrder K] (i : Nat)
    (acc : List (DataLocation × K)) :
    List (List (K × Operation V)) → List (DataLocation × K)
  | [] => acc
  | s :: rest =>
    let acc' := match s.head? with
      | none => acc
      | some (k, _) =>
        match acc.head? with
        | none => [(DataLocation.snapshot i, k)]
        | some (_, maxKey) =>
          if maxKey < k then [(DataLocation.snapshot i, k)]
          else if k = maxKey then acc ++ [(DataLocation.snapshot i, k)]
          else acc
    collectMaxAux (i + 1) acc' rest

/-- Advancing (consuming, discarding) the head of one source
(snapshot_manager.rs lines 164-173). -/
def advanceOne {K V : Type} (db : List (K × V))
    (snaps : List (List (K × Operation V))) :
    DataLocation → List (K × V) × List (List (K × Operation V))
  | .db => (db.tail, snaps)
  | .snapshot i => (db, snaps.set i ((snaps.getD i []).tail))

/-- The initial content of `max_values` before the snapshot loop: the
peeked head of the store iterator, if any (snapshot_manager.rs lines
125-128). -/
def dbHeadLoc {K V : Type} (db : List (K × V)) : List (DataLocation × K) :=
  match db.head? with
  | some (k, _) => [(DataLocation.db, k)]
  | none => []

/-- `for location in max_values { … next().unwrap() }` (snapshot_manager.rs
lines 163-173): advance every listed source. -/
def advanceAll {K V : Type} (db : List (K × V))
    (snaps : List (List (K × Operation V)))
    (locs : List (DataLocation × K)) :
    List (K × V) × List (List (K × Operation V)) :=
  locs.foldl (fun st e => advanceOne st.1 st.2 e.1) (db, snaps)

/-- One pass of the `loop` body of `SnapshotManagerIter::next`
(snapshot_manager.rs lines 123-189).  `none` models the `break` when no
source has a head (the iterator is exhausted).  Otherwise the result is the
emitted pair, if any (`none` here is the `Operation::Delete => continue`
case), together with the advanced sources.  The `unwrap`s of the source
cannot fail — the authoritative head was just peeked and the other advanced
locations are distinct from it — and are modelled by the impossible
fall-through branches returning `none`. -/
def mergePass {K V : Type} [LinearOrder K] (db : List (K × V))
    (snaps : List (List (K × Operation V))) :
    Option (Option (K × V) × List (K × V) × List (List (K × Operation V))) :=
  match (collectMaxAux 0 (dbHeadLoc db) snaps).getLast? with
  | none => none
  | some (lastLoc, _) =>
    match lastLoc with
    | .db =>
      match (advanceAll db snaps
          (collectMaxAux 0 (dbHeadLoc db) snaps).dropLast).1.head? with
      | some (k, v) =>
        some (some (k, v),
          (advanceAll db snaps
            (collectMaxAux 0 (dbHeadLoc db) snaps).dropLast).1.tail,
          (advanceAll db snaps
            (collectMaxAux 0 (dbHeadLoc db) snaps).dropLast).2)
      | none => none
    | .snapshot i =>
      match ((advanceAll db snaps
          (collectMaxAux 0 (dbHeadLoc db) snaps).dropLast).2.getD i []).head? with
      | some (k, op) =>
        match op with
        | .put v =>
          some (some (k, v),
            (advanceAll db snaps
              (collectMaxAux 0 (dbHeadLoc db) snaps).dropLast).1,
            (advanceAll db snaps
              (collectMaxAux 0 (dbHeadLoc db) snaps).dropLast).2.set i
              (((advanceAll db snaps
                (collectMaxAux 0 (dbHeadLoc db) snaps).dropLast).2.getD i []).tail))
        | .delete =>
          some (none,
            (advanceAll db snaps
              (collectMaxAux 0 (dbHeadLoc db) snaps).dropLast).1,
            (advanceAll db snaps
              (collectMaxAux 0 (dbHeadLoc db) snaps).dropLast).2.set i
              (((advanceAll db snaps
                (collectMaxAux 0 (dbHeadLoc db) snaps).dropLast).2.getD i []).tail))
      | none => none

/-- One call of `SnapshotManagerIter::next`, fuelled: repeat `mergePass`
until a pair is emitted (`some (some …)`), the sources are exhausted
(`some none`, the source's `return None`), or the fuel runs out (`none`;
every theorem supplies fuel beyond the total source size). -/
def mergeNextF {K V : Type} [LinearOrder K] :
    Nat → List (K × V) → List (List (K × Operation V)) →
    Option (Option ((K × V) × List (K × V) × List (List (K × Operation V))))
  | 0, _, _ => none
  | fuel + 1, db, snaps =>
    match mergePass db snaps with
    | none => some none
    | some (some kv, st) => some (some (kv, st))
    | some (none, st) => mergeNextF fuel st.1 st.2

/-- The full sequence produced by draining `SnapshotManagerIter`, fuelled
like `mergeNextF`. -/
def mergeRunF {K V : Type} [LinearOrder K] :
    Nat → List (K × V) → List (List (K × Operation V)) → List (K × V)
  | 0, _, _ => []
  | fuel + 1, db, snaps =>
    match mergePass db snaps with
    | none => []
    | some (some kv, st) => kv :: mergeRunF fuel st.1 st.2
    | some (none, st) => mergeRunF fuel st.1 st.2

/-- Total number of `(key, …)` pairs remaining across the store iterator
and all snapshot iterators. -/
def totalSize {K V : Type} (db : List (K × V))
    (snaps : List (List (K × Operation V))) : Nat :=
  db.length + (snaps.map List.length).sum

/-- The ancestor walk of `SnapshotManager::iter` (snapshot_manager.rs lines
66-87): collect one frozen-snapshot iterator per ancestor, panicking when an
ancestor in the graph is missing from the registry, and reverse the
collection so that the oldest ancestor comes first (index 0, lowest
priority) and the nearest ancestor last (highest priority).  Fuelled like
`SnapshotManager.get`. -/
def SnapshotManager.iterSources {K V : Type} [DecidableEq K] (fuel : Nat)
    (m : SnapshotManager K V) (snapshot_id : SnapshotId) :
    Option (Outcome (List (List (K × Operation V)))) :=
  match fuel with
  | 0 => none
  | fuel + 1 =>
    match entLookup m.to_parent snapshot_id with
    | none => some (.ok [])
    | some parent =>
      match entLookup m.snapshots parent with
      | none => some .panic
      | some snap =>
        match SnapshotManager.iterSources fuel m parent with
        | none => none
        | some .panic => some .panic
        | some (.ok rest) => some (.ok (rest ++ [snap.iter]))

/-- `SnapshotManager::iter` (snapshot_manager.rs lines 66-87) fully drained:
the walk of `iterSources` followed by the N-way merge over the store's
descending iterator and the collected snapshot iterators. -/
def SnapshotManager.iter {K V : Type} [LinearOrder K] (fuel : Nat)
    (m : SnapshotManager K V) (snapshot_id : SnapshotId) :
    Option (Outcome (List (K × V))) :=
  match m.iterSources fuel snapshot_id with
  | none => none
  | some .panic => some .panic
  | some (.ok snaps) =>
    some (.ok (mergeRunF (totalSize m.db.raw_iter snaps + 1)
      m.db.raw_iter snaps))

/-! ## Basic lemmas -/

lemma entLookup_nil {K : Type} [DecidableEq K] {α : Type} (k : K) :
    entLookup ([] : List (K × α)) k = none := rfl

lemma entLookup_cons {K : Type} [DecidableEq K] {α : Type} (k k' : K)
    (v : α) (t : List (K × α)) :
    entLookup ((k', v) :: t) k = if k' = k then some v else entLookup t k := by
  by_cases h : k' = k <;> simp [entLookup, List.find?_cons, h]

lemma chainResolve_cons {K V : Type} [DecidableEq K]
    (s : FrozenDbSnapshot K V) (snaps : List (FrozenDbSnapshot K V))
    (db : DB K V) (k : K) :
    chainResolve (s :: snaps) db k =
      match s.get k with
      | some (Operation.put v) => some v
      | some Operation.delete => none
      | none => chainResolve snaps db k := by
  cases hg : s.get k with
  | none => simp [chainResolve, List.findSome?_cons, hg]
  | some op => cases op <;> simp [chainResolve, List.findSome?_cons, hg]

/-- Claim C1: For every snapshot id whose full ancestor chain `l` in the snapshot
graph is entirely present in the registry, `SnapshotManager::get` walks the
chain starting at the id's parent and returns the resolution of the nearest
ancestor mentioning the key (`Put` → `Some`, `Delete` → `None`), falling
through to the persistent store's result when no ancestor mentions it. -/
theorem get_resolves_ancestor_chain {K V : Type} [LinearOrder K]
    (m : SnapshotManager K V) (id : SnapshotId) (k : K)
    (l : List SnapshotId) (fuel : Nat)
    (hchain : isChain m.to_parent id l)
    (hreg : ∀ p ∈ l, (entLookup m.snapshots p).isSome)
    (hfuel : l.length < fuel) :
    m.get fuel id k =
      some (.ok (chainResolve (l.filterMap (entLookup m.snapshots)) m.db k)) := by
  induction l generalizing id fuel with
  | nil =>
    cases fuel with
    | zero => omega
    | succ f =>
      unfold isChain at hchain
      simp only [SnapshotManager.get, hchain, List.filterMap_nil]
      rfl
  | cons p rest ih =>
    cases fuel with
    | zero => simp at hfuel
    | succ f =>
      obtain ⟨hp, hrest⟩ := hchain
      obtain ⟨snap, hsnap⟩ : ∃ s, entLookup m.snapshots p = some s := by
        have := hreg p (by simp)
        cases h : entLookup m.snapshots p with
        | none => rw [h] at this; simp at this
        | some s => exact ⟨s, rfl⟩
      have hfm : (p :: rest).filterMap (entLookup m.snapshots) =
          snap :: rest.filterMap (entLookup m.snapshots) := by
        simp [hsnap]
      rw [hfm, chainResolve_cons]
      simp only [SnapshotManager.get, hp, hsnap]
      cases hg : snap.get k with
      | none =>
        exact ih p f hrest (fun q hq => hreg q (List.mem_cons_of_mem _ hq))
          (by simpa using Nat.lt_of_succ_lt_succ hfuel)
      | some op => cases op <;> simp

/-- Witness for C1. -/
theorem get_resolves_ancestor_chain_witness :
    (let m : SnapshotManager Nat Nat :=
      { db := ⟨[(1, 1)], true⟩
        snapshots := [(1, ⟨[(2, .put 2), (1, .delete)]⟩)]
        to_parent := [(2, 1)] }
    m.get 2 2 1 = some (.ok (chainResolve
      ([1].filterMap (entLookup m.snapshots)) m.db 1))) :=
  get_resolves_ancestor_chain _ 2 1 [1] 2 (by decide) (by decide) (by decide)

/-- Claim C3: Merge-iterator concrete scenario of the spec: with the store holding
`{2:1, 3:9, 4:1}`, snapshot `S1` (id 1, parent = store) `{1:8, 4:2, 5:7,
8:3}`, `S2` (id 2, parent = `S1`) `{2:6, 9:4, 10:2, delete 4}`, `S3` (id 3,
parent = `S2`) `{1:2, 12:1, delete 9}`, iterating the resolved view at `S3`
(a query id `4` whose parent is `S3`, since `SnapshotManager::iter` walks
from the queried id's parent — the configuration of the source's own
`test_iterator`) yields exactly `(12,1), (10,2), (8,3), (5,7), (3,9),
(2,6), (1,2)` in this order. -/
theorem iter_concrete_scenario :
    (SnapshotManager.iter 10
      { db := ⟨[(4, 1), (3, 9), (2, 1)], true⟩
        snapshots :=
          [(1, ⟨[(8, .put 3), (5, .put 7), (4, .put 2), (1, .put 8)]⟩),
           (2, ⟨[(10, .put 2), (9, .put 4), (4, .delete), (2, .put 6)]⟩),
           (3, ⟨[(12, .put 1), (9, .delete), (1, .put 2)]⟩)]
        to_parent := [(2, 1), (3, 2), (4, 3)] }
      4 : Option (Outcome (List (Nat × Nat)))) =
    some (.ok [(12, 1), (10, 2), (8, 3), (5, 7), (3, 9), (2, 6), (1, 2)]) := by
  decide

/-- Claim C4: Point-lookup concrete scenario of the spec: the store holds `A=1` (key
`1`), snapshot `S1` (id 1, parent = store) holds `{set B=2, delete A}`
(key `B` is `2`), `S2` (id 2, parent = `S1`) holds `{set A=5}`.  Reading
the view that includes `S1` (query id 2, whose parent is `S1` — `get`
walks from the queried id's parent): `A ↦ None`, `B ↦ Some 2`; reading the
view that includes `S2` (query id 3 with parent `S2`): `A ↦ Some 5`,
`B ↦ Some 2`, `C` (key `3`) `↦ None`. -/
theorem get_concrete_scenario :
    (let m : SnapshotManager Nat Nat :=
      { db := ⟨[(1, 1)], true⟩
        snapshots := [(1, ⟨[(2, .put 2), (1, .delete)]⟩),
                      (2, ⟨[(1, .put 5)]⟩)]
        to_parent := [(2, 1), (3, 2)] }
    m.get 10 2 1 = some (.ok none) ∧
    m.get 10 2 2 = some (.ok (some 2)) ∧
    m.get 10 3 1 = some (.ok (some 5)) ∧
    m.get 10 3 2 = some (.ok (some 2)) ∧
    m.get 10 3 3 = some (.ok none)) := by
  decide

/-- Claim C7: For every snapshot id not present in the registry, `commit_snapshot`
returns an error — it does not panic — and the manager (in particular the
registry) is left unchanged. -/
theorem commit_unknown_id_errors {K V : Type} [LinearOrder K]
    (m : SnapshotManager K V) (id : SnapshotId)
    (h : entLookup m.snapshots id = none) :
    m.commit_snapshot id = (.error .unknownSnapshot, m) := by
  simp [SnapshotManager.commit_snapshot, h]

/-- Witness for C7. -/
theorem commit_unknown_id_errors_witness :
    (let m : SnapshotManager Nat Nat :=
      { db := ⟨[(1, 1)], true⟩, snapshots := [], to_parent := [] }
    m.commit_snapshot 5 = (.error .unknownSnapshot, m)) :=
  commit_unknown_id_errors _ 5 (by decide)

/-- Claim C5, counterexample: the claim asserts that a failed commit leaves
the snapshot still registered because removal would follow the flush.  In
the source (snapshot_manager.rs line 52) the snapshot is *removed* from the
registry before `write_schemas` is called, so after a failed store write the
snapshot is no longer registered: with one registered snapshot and a store
whose write fails, `commit_snapshot` returns the I/O error yet
`contains_snapshot` is `false` afterwards. -/
theorem commit_failed_write_unregisters :
    (let m : SnapshotManager Nat Nat :=
      { db := ⟨[(1, 1)], false⟩
        snapshots := [(1, ⟨[(2, .put 2), (1, .delete)]⟩)]
        to_parent := [] }
    (m.commit_snapshot 1).1 = .error .ioError ∧
    ((m.commit_snapshot 1).2.contains_snapshot 1) = false) :=
  ⟨rfl, rfl⟩

/-- Claim C5 (amended): for every registered snapshot id, `commit_snapshot`
removes the id from the registry *first* (that is how the owned snapshot is
obtained) and then flushes the snapshot's operations as one atomic batch
through `DB::write_schemas`, returning the write's result unchanged; on a
successful write the store holds the batch applied, on a failed write the
I/O error is propagated unchanged — and in both cases (in particular after
a failed commit) the snapshot is no longer registered. -/
theorem commit_snapshot_amended {K V : Type} [LinearOrder K]
    (m : SnapshotManager K V) (id : SnapshotId) (snap : FrozenDbSnapshot K V)
    (h : entLookup m.snapshots id = some snap) :
    (m.commit_snapshot id).2.snapshots = entRemove m.snapshots id ∧
    (m.commit_snapshot id).2.to_parent = m.to_parent ∧
    (m.commit_snapshot id).1 =
      (m.db.write_schemas snap.intoBatch).map (fun _ => ()) ∧
    (m.db.writeOk = true →
      (m.commit_snapshot id).1 = .ok () ∧
      (m.commit_snapshot id).2.db =
        { m.db with entries := applyOps snap.intoBatch m.db.entries }) ∧
    (m.db.writeOk = false →
      (m.commit_snapshot id).1 = .error DbError.ioError ∧
      (m.commit_snapshot id).2.db = m.db) := by
  cases hw : m.db.writeOk <;>
    simp [SnapshotManager.commit_snapshot, h, DB.write_schemas, hw, Except.map]

/-- Witness for the amended C5. -/
theorem commit_snapshot_amended_witness :
    (let m : SnapshotManager Nat Nat :=
      { db := ⟨[(1, 1)], true⟩
        snapshots := [(1, ⟨[(2, .put 2), (1, .delete)]⟩)]
        to_parent := [] }
    (m.commit_snapshot 1).2.snapshots = entRemove m.snapshots 1 ∧
    (m.commit_snapshot 1).2.to_parent = m.to_parent ∧
    (m.commit_snapshot 1).1 =
      (m.db.write_schemas (FrozenDbSnapshot.intoBatch
        ⟨[(2, .put 2), (1, .delete)]⟩)).map (fun _ => ()) ∧
    (m.db.writeOk = true →
      (m.commit_snapshot 1).1 = .ok () ∧
      (m.commit_snapshot 1).2.db =
        { m.db with entries := applyOps (FrozenDbSnapshot.intoBatch
          ⟨[(2, .put 2), (1, .delete)]⟩) m.db.entries }) ∧
    (m.db.writeOk = false →
      (m.commit_snapshot 1).1 = .error DbError.ioError ∧
      (m.commit_snapshot 1).2.db = m.db)) :=
  commit_snapshot_amended _ 1 _ (by decide)

/-! ## The degenerate merge: store only -/

lemma mergeRunF_db_only {K V : Type} [LinearOrder K] :
    ∀ (fuel : Nat) (db : List (K × V)), db.length < fuel →
      mergeRunF fuel db [] = db := by
  intro fuel
  induction fuel with
  | zero => intro db h; omega
  | succ f ih =>
    intro db h
    cases db with
    | nil => simp [mergeRunF, mergePass, collectMaxAux, dbHeadLoc]
    | cons e t =>
      simpa [mergeRunF, mergePass, collectMaxAux, dbHeadLoc, advanceAll] using
        ih t (by simpa using Nat.lt_of_succ_lt_succ h)

/-- Claim C9: For every snapshot id with no entry in the snapshot graph —
including ids never registered at all — `get` returns exactly the
persistent store's result and `iter` is exactly the store's descending
iteration, with no error and no panic: an unknown id is silently treated as
a direct child of the store. -/
theorem unknown_id_reads_store {K V : Type} [LinearOrder K]
    (m : SnapshotManager K V) (id : SnapshotId) (k : K) (fuel : Nat)
    (h : entLookup m.to_parent id = none) (hfuel : 0 < fuel) :
    m.get fuel id k = some (.ok (m.db.get k)) ∧
    m.iter fuel id = some (.ok m.db.raw_iter) := by
  cases fuel with
  | zero => omega
  | succ f =>
    constructor
    · simp [SnapshotManager.get, h]
    · simp only [SnapshotManager.iter, SnapshotManager.iterSources, h]
      rw [mergeRunF_db_only]
      simp [totalSize]

/-- Witness for C9. -/
theorem unknown_id_reads_store_witness :
    (let m : SnapshotManager Nat Nat :=
      { db := ⟨[(2, 7), (1, 1)], true⟩
        snapshots := [(1, ⟨[(2, .put 2)]⟩)]
        to_parent := [(2, 1)] }
    m.get 1 9 2 = some (.ok (m.db.get 2)) ∧
    m.iter 1 9 = some (.ok m.db.raw_iter)) :=
  unknown_id_reads_store _ 9 2 1 (by decide) (by decide)

/-! ## Panic characterization (C6) -/

lemma get_panic_iff {K V : Type} [LinearOrder K] (m : SnapshotManager K V)
    (k : K) :
    ∀ (l : List SnapshotId) (id : SnapshotId) (fuel : Nat),
      isChain m.to_parent id l → l.length < fuel →
      (m.get fuel id k = some .panic ↔ getPanics m.snapshots k l = true) := by
  intro l
  induction l with
  | nil =>
    intro id fuel hchain hfuel
    cases fuel with
    | zero => omega
    | succ f =>
      unfold isChain at hchain
      simp [SnapshotManager.get, hchain, getPanics]
  | cons p rest ih =>
    intro id fuel hchain hfuel
    cases fuel with
    | zero => simp at hfuel
    | succ f =>
      obtain ⟨hp, hrest⟩ := hchain
      cases hps : entLookup m.snapshots p with
      | none => simp [SnapshotManager.get, hp, hps, getPanics]
      | some s =>
        cases hg : s.get k with
        | none =>
          have := ih p f hrest (by simpa using Nat.lt_of_succ_lt_succ hfuel)
          simpa [SnapshotManager.get, hp, hps, hg, getPanics] using this
        | some op =>
          cases op <;> simp [SnapshotManager.get, hp, hps, hg, getPanics]

lemma iterSources_eq {K V : Type} [DecidableEq K] (m : SnapshotManager K V) :
    ∀ (l : List SnapshotId) (id : SnapshotId) (fuel : Nat),
      isChain m.to_parent id l → l.length < fuel →
      m.iterSources fuel id =
        if ∀ p ∈ l, (entLookup m.snapshots p).isSome = true
        then some (.ok (((l.filterMap (entLookup m.snapshots)).reverse).map
          FrozenDbSnapshot.iter))
        else some .panic := by
  intro l
  induction l with
  | nil =>
    intro id fuel hchain hfuel
    cases fuel with
    | zero => omega
    | succ f =>
      unfold isChain at hchain
      simp [SnapshotManager.iterSources, hchain]
  | cons p rest ih =>
    intro id fuel hchain hfuel
    cases fuel with
    | zero => simp at hfuel
    | succ f =>
      obtain ⟨hp, hrest⟩ := hchain
      cases hps : entLookup m.snapshots p with
      | none => simp [SnapshotManager.iterSources, hp, hps]
      | some s =>
        have hrec := ih p f hrest (by simpa using Nat.lt_of_succ_lt_succ hfuel)
        by_cases hall : ∀ q ∈ rest, (entLookup m.snapshots q).isSome = true
        · rw [if_pos hall] at hrec
          have hcond : ∀ q ∈ p :: rest, (entLookup m.snapshots q).isSome = true := by
            intro q hq
            rcases List.mem_cons.mp hq with rfl | hq'
            · simp [hps]
            · exact hall q hq'
          simp only [SnapshotManager.iterSources, hp, hps, hrec, if_pos hcond]
          simp [List.filterMap_cons, hps]
        · rw [if_neg hall] at hrec
          have hcond : ¬ ∀ q ∈ p :: rest, (entLookup m.snapshots q).isSome = true := by
            intro hc
            exact hall (fun q hq => hc q (List.mem_cons_of_mem _ hq))
          simp only [SnapshotManager.iterSources, hp, hps, hrec, if_neg hcond]

lemma getPanics_false_of_registered {K V : Type} [DecidableEq K]
    {reg : List (SnapshotId × FrozenDbSnapshot K V)} {k : K} :
    ∀ {l : List SnapshotId},
      (∀ p ∈ l, (entLookup reg p).isSome = true) →
      getPanics reg k l = false := by
  intro l
  induction l with
  | nil => intro; rfl
  | cons p rest ih =>
    intro h
    have hp := h p (by simp)
    obtain ⟨s, hs⟩ : ∃ s, entLookup reg p = some s := by
      cases hl : entLookup reg p with
      | none => rw [hl] at hp; simp at hp
      | some s => exact ⟨s, rfl⟩
    cases hg : s.get k with
    | none =>
      simpa [getPanics, hs, hg] using ih (fun q hq => h q (List.mem_cons_of_mem _ hq))
    | some op => simp [getPanics, hs, hg]

/-- Claim C6: `get` and `iter` panic exactly when an ancestor id encountered
while walking the queried id's parent chain is present in the snapshot graph
but absent from the registry (`getPanics` records exactly the ancestors the
`get` walk encounters; `iter` encounters the whole chain); under the
precondition that every chain member is registered, the panic branch is
unreachable for both. -/
theorem get_iter_panic_characterization {K V : Type} [LinearOrder K]
    (m : SnapshotManager K V) (id : SnapshotId) (k : K)
    (l : List SnapshotId) (fuel : Nat)
    (hchain : isChain m.to_parent id l) (hfuel : l.length < fuel) :
    (m.get fuel id k = some .panic ↔ getPanics m.snapshots k l = true) ∧
    (m.iter fuel id = some .panic ↔ ∃ p ∈ l, entLookup m.snapshots p = none) ∧
    ((∀ p ∈ l, (entLookup m.snapshots p).isSome = true) →
      m.get fuel id k ≠ some .panic ∧ m.iter fuel id ≠ some .panic) := by
  have hget := get_panic_iff m k l id fuel hchain hfuel
  have hsrc := iterSources_eq m l id fuel hchain hfuel
  have hiter : m.iter fuel id = some .panic ↔
      ∃ p ∈ l, entLookup m.snapshots p = none := by
    by_cases hall : ∀ p ∈ l, (entLookup m.snapshots p).isSome = true
    · rw [if_pos hall] at hsrc
      have hok : m.iter fuel id ≠ some .panic := by
        simp [SnapshotManager.iter, hsrc]
      constructor
      · intro h; exact absurd h hok
      · rintro ⟨p, hp, hnone⟩
        have := hall p hp
        rw [hnone] at this; simp at this
    · rw [if_neg hall] at hsrc
      have hpan : m.iter fuel id = some .panic := by
        simp [SnapshotManager.iter, hsrc]
      constructor
      · intro _
        push_neg at hall
        obtain ⟨p, hp, hns⟩ := hall
        refine ⟨p, hp, ?_⟩
        cases h : entLookup m.snapshots p with
        | none => rfl
        | some s => rw [h] at hns; simp at hns
      · intro _; exact hpan
  refine ⟨hget, hiter, fun hall => ⟨?_, ?_⟩⟩
  · intro hcontra
    have := hget.mp hcontra
    rw [getPanics_false_of_registered hall] at this
    exact Bool.false_ne_true this
  · intro hcontra
    obtain ⟨p, hp, hnone⟩ := hiter.mp hcontra
    have := hall p hp
    rw [hnone] at this; simp at this

/-- Witness for C6. -/
theorem get_iter_panic_characterization_witness :
    (let m : SnapshotManager Nat Nat :=
      { db := ⟨[(1, 1)], true⟩
        snapshots := [(1, ⟨[(2, .put 2)]⟩)]
        to_parent := [(3, 2), (2, 1)] }
    (m.get 3 3 1 = some .panic ↔ getPanics m.snapshots 1 [2, 1] = true) ∧
    (m.iter 3 3 = some .panic ↔ ∃ p ∈ [2, 1], entLookup m.snapshots p = none) ∧
    ((∀ p ∈ [2, 1], (entLookup m.snapshots p).isSome = true) →
      m.get 3 3 1 ≠ some .panic ∧ m.iter 3 3 ≠ some .panic)) :=
  get_iter_panic_characterization _ 3 1 [2, 1] 3 (by decide) (by decide)

/-! ## Last-write-wins for batches (C8) -/

lemma entLookup_insertSorted_self {K V : Type} [LinearOrder K] (k : K)
    (v : V) : ∀ (st : List (K × V)),
    entLookup (applyOp.insertSorted k v st) k = some v := by
  intro st
  induction st with
  | nil => simp [applyOp.insertSorted, entLookup_cons]
  | cons e t ih =>
    obtain ⟨k', v'⟩ := e
    unfold applyOp.insertSorted
    by_cases h1 : k' < k
    · simp [h1, entLookup_cons]
    · by_cases h2 : k = k'
      · simp [h1, h2, entLookup_cons]
      · have hne : k' ≠ k := fun h => h2 h.symm
        simp [h1, h2, entLookup_cons, hne, ih]

lemma entLookup_insertSorted_ne {K V : Type} [LinearOrder K] {k k'' : K}
    (v : V) (hne : k'' ≠ k) : ∀ (st : List (K × V)),
    entLookup (applyOp.insertSorted k v st) k'' = entLookup st k'' := by
  have hkk : k ≠ k'' := fun h => hne h.symm
  intro st
  induction st with
  | nil => simp [applyOp.insertSorted, entLookup_cons, hkk]
  | cons e t ih =>
    obtain ⟨k', v'⟩ := e
    unfold applyOp.insertSorted
    by_cases h1 : k' < k
    · simp [h1, entLookup_cons, hkk]
    · by_cases h2 : k = k'
      · subst h2
        simp [h1, entLookup_cons, hkk]
      · simp [h1, h2, entLookup_cons, ih]

lemma entLookup_filterNe_self {K V : Type} [DecidableEq K] (k : K) :
    ∀ (st : List (K × V)),
    entLookup (st.filter (fun e => !decide (e.1 = k))) k = none := by
  intro st
  induction st with
  | nil => rfl
  | cons e t ih =>
    obtain ⟨k', v'⟩ := e
    by_cases h : k' = k
    · simp [List.filter_cons, h, ih]
    · simp [List.filter_cons, h, entLookup_cons, ih]

lemma entLookup_filterNe_ne {K V : Type} [DecidableEq K] {k k'' : K}
    (hne : k'' ≠ k) : ∀ (st : List (K × V)),
    entLookup (st.filter (fun e => !decide (e.1 = k))) k'' = entLookup st k'' := by
  intro st
  induction st with
  | nil => rfl
  | cons e t ih =>
    obtain ⟨k', v'⟩ := e
    by_cases h : k' = k
    · subst h
      have : k' ≠ k'' := fun h => hne h.symm
      simp [List.filter_cons, entLookup_cons, this, ih]
    · simp [List.filter_cons, h, entLookup_cons, ih]

lemma lastMention_cons {K V : Type} [DecidableEq K] (op : WriteOp K V)
    (ops : List (WriteOp K V)) (k : K) :
    lastMention (op :: ops) k =
      (lastMention ops k).or (if op.key = k then some op else none) := by
  unfold lastMention
  rw [List.reverse_cons, List.find?_append]
  cases hf : ops.reverse.find? (fun o => decide (o.key = k)) with
  | none => by_cases h : op.key = k <;> simp [h, List.find?_cons, Option.or]
  | some o => simp [Option.or]

lemma applyOps_lookup {K V : Type} [LinearOrder K] :
    ∀ (ops : List (WriteOp K V)) (st : List (K × V)) (k : K),
    entLookup (applyOps ops st) k =
      match lastMention ops k with
      | some (.value _ v) => some v
      | some (.deletion _) => none
      | none => entLookup st k := by
  intro ops
  induction ops with
  | nil => intro st k; rfl
  | cons op ops ih =>
    intro st k
    have hstep : applyOps (op :: ops) st = applyOps ops (applyOp st op) := rfl
    rw [hstep, ih, lastMention_cons]
    cases hl : lastMention ops k with
    | some o => cases o <;> simp [Option.or]
    | none =>
      simp only [Option.or]
      cases op with
      | value k0 v =>
        by_cases hk : k0 = k
        · subst hk; simp [WriteOp.key, applyOp, entLookup_insertSorted_self]
        · have : k ≠ k0 := fun h => hk h.symm
          simp [WriteOp.key, hk, applyOp, entLookup_insertSorted_ne _ this]
      | deletion k0 =>
        by_cases hk : k0 = k
        · subst hk; simp [WriteOp.key, applyOp, entLookup_filterNe_self]
        · have : k ≠ k0 := fun h => hk h.symm
          simp [WriteOp.key, hk, applyOp, entLookup_filterNe_ne this]

lemma entLookup_eq_none_of_not_mem {K : Type} [DecidableEq K] {α : Type}
    {l : List (K × α)} {k : K} (h : k ∉ l.map Prod.fst) :
    entLookup l k = none := by
  induction l with
  | nil => rfl
  | cons e t ih =>
    simp only [List.map_cons, List.mem_cons] at h
    push_neg at h
    rw [entLookup_cons, if_neg (fun he => h.1 he.symm)]
    exact ih h.2

lemma entLookup_mapUpdate {K : Type} [DecidableEq K] {α : Type}
    (fams : List (K × α)) (c cf : K) (f : α → α) :
    entLookup (fams.map (fun e => if e.1 = c then (e.1, f e.2) else e)) cf =
      if cf = c then (entLookup fams cf).map f else entLookup fams cf := by
  induction fams with
  | nil => simp [entLookup_nil]
  | cons e t ih =>
    obtain ⟨k', a⟩ := e
    simp only [List.map_cons]
    by_cases h1 : k' = c
    · by_cases h2 : k' = cf
      · have hc : cf = c := h2 ▸ h1
        simp [h1, h2, entLookup_cons, hc]
      · have h3 : ¬ c = cf := fun h => h2 (h1.trans h)
        have h4 : ¬ cf = c := fun h => h3 h.symm
        simp [h1, h2, entLookup_cons, ih, h3, h4]
    · by_cases h2 : k' = cf
      · have hnc : ¬ cf = c := fun h => h1 (h2.trans h)
        simp [h1, h2, entLookup_cons, hnc]
      · simp [h1, h2, entLookup_cons, ih]

lemma entLookup_some_mem {K : Type} [DecidableEq K] {α : Type}
    {l : List (K × α)} {k : K} {a : α} (h : entLookup l k = some a) :
    (k, a) ∈ l := by
  unfold entLookup at h
  cases hf : l.find? (fun e => decide (e.1 = k)) with
  | none => rw [hf] at h; simp at h
  | some e =>
    rw [hf] at h
    have hkey : e.1 = k := by simpa using List.find?_some hf
    have hmem := List.mem_of_find?_eq_some hf
    obtain ⟨e1, e2⟩ := e
    have h2a : e2 = a := Option.some.inj h
    have hk2 : e1 = k := hkey
    subst h2a
    subst hk2
    exact hmem

lemma foldl_update_lookup {K V : Type} [LinearOrder K] :
    ∀ (rows : List (ColumnFamilyName × List (WriteOp K V)))
      (fams : List (ColumnFamilyName × List (K × V))) (cf : ColumnFamilyName),
      (rows.map Prod.fst).Nodup →
      entLookup (rows.foldl
        (fun fams r =>
          fams.map (fun e => if e.1 = r.1 then (e.1, applyOps r.2 e.2) else e))
        fams) cf =
        match entLookup rows cf with
        | some ops => (entLookup fams cf).map (fun st => applyOps ops st)
        | none => entLookup fams cf := by
  intro rows
  induction rows with
  | nil => intro fams cf _; rfl
  | cons r rest ih =>
    intro fams cf hnodup
    obtain ⟨c, ops⟩ := r
    simp only [List.map_cons, List.nodup_cons] at hnodup
    obtain ⟨hc, hrest⟩ := hnodup
    have hstep : (((c, ops) :: rest).foldl
        (fun fams r =>
          fams.map (fun e => if e.1 = r.1 then (e.1, applyOps r.2 e.2) else e))
        fams) =
        rest.foldl _
          (fams.map (fun e => if e.1 = c then (e.1, applyOps ops e.2) else e)) := rfl
    rw [hstep, ih _ cf hrest, entLookup_mapUpdate]
    by_cases hcf : cf = c
    · subst hcf
      have hnone : entLookup rest cf = none :=
        entLookup_eq_none_of_not_mem (by simpa using hc)
      simp [hnone, entLookup_cons]
    · have : ¬ c = cf := fun h => hcf h.symm
      simp [entLookup_cons, this, hcf]

/-- Claim C8: for every `SchemaBatch` and column family, applying the batch
through `write_schemas` replays that family's operations in recorded order,
so for each key the *last* recorded operation determines the durable state:
the resulting family binds the key per the last `put`/`delete` mentioning
it, and keys the batch never mentions keep their prior binding.  (The
family-name `Nodup` hypothesis holds for every batch, whose rows live in a
`HashMap` keyed by family name.) -/
theorem write_schemas_last_write_wins {K V : Type} [LinearOrder K]
    (db db' : FamilyDB K V) (batch : SchemaBatch K V)
    (hnodup : (batch.rows.map Prod.fst).Nodup)
    (hok : db.write_schemas batch = .ok db')
    (cf : ColumnFamilyName) (k : K) :
    entLookup ((entLookup db'.families cf).getD []) k =
      match lastMention (batch.rowsOf cf) k with
      | some (.value _ v) => some v
      | some (.deletion _) => none
      | none => entLookup ((entLookup db.families cf).getD []) k := by
  unfold FamilyDB.write_schemas at hok
  by_cases hall : batch.rows.all (fun r => (entLookup db.families r.1).isSome) = true
  · rw [if_pos hall] at hok
    by_cases hw : db.writeOk = true
    · rw [if_pos hw] at hok
      have hfam : db'.families = batch.rows.foldl
          (fun fams r =>
            fams.map (fun e => if e.1 = r.1 then (e.1, applyOps r.2 e.2) else e))
          db.families := by
        cases hok
        rfl
      rw [hfam, foldl_update_lookup batch.rows db.families cf hnodup]
      cases hcf : entLookup batch.rows cf with
      | none => simp [SchemaBatch.rowsOf, hcf, lastMention]
      | some ops =>
        have hmem : (cf, ops) ∈ batch.rows := entLookup_some_mem hcf
        have hsome : (entLookup db.families cf).isSome = true := by
          have := List.all_eq_true.mp hall (cf, ops) hmem
          simpa using this
        obtain ⟨st, hst⟩ : ∃ st, entLookup db.families cf = some st := by
          cases h : entLookup db.families cf with
          | none => rw [h] at hsome; simp at hsome
          | some st => exact ⟨st, rfl⟩
        rw [hst]
        have hred : ((some st).map (fun st => applyOps ops st)).getD [] =
            applyOps ops st := rfl
        rw [hred, applyOps_lookup]
        simp [SchemaBatch.rowsOf, hcf, hst]
    · rw [if_neg hw] at hok; cases hok
  · rw [if_neg hall] at hok; cases hok

/-- Witness for C8. -/
theorem write_schemas_last_write_wins_witness :
    (let db : FamilyDB Nat Nat := ⟨[("cf", [(1, 5)])], true⟩
    let batch : SchemaBatch Nat Nat :=
      ⟨[("cf", [.value 2 7, .value 2 9, .deletion 1])]⟩
    let db' : FamilyDB Nat Nat := ⟨[("cf", [(2, 9)])], true⟩
    entLookup ((entLookup db'.families "cf").getD []) 2 =
      match lastMention (batch.rowsOf "cf") 2 with
      | some (.value _ v) => some v
      | some (.deletion _) => none
      | none => entLookup ((entLookup db.families "cf").getD []) 2) :=
  write_schemas_last_write_wins
    ⟨[("cf", [(1, 5)])], true⟩ ⟨[("cf", [(2, 9)])], true⟩
    ⟨[("cf", [.value 2 7, .value 2 9, .deletion 1])]⟩
    (by decide) (by rfl) "cf" 2

/-! ## Termination of the merge (C10) -/

lemma sum_map_length_set_tail {K V : Type} :
    ∀ (snaps : List (List (K × Operation V))) (i : Nat),
    ((snaps.set i ((snaps.getD i []).tail)).map List.length).sum ≤
      (snaps.map List.length).sum := by
  intro snaps
  induction snaps with
  | nil => intro i; simp
  | cons s t ih =>
    intro i
    cases i with
    | zero =>
      simp only [List.set_cons_zero, List.getD_cons_zero, List.map_cons,
        List.sum_cons]
      exact Nat.add_le_add_right (by simp [List.length_tail]) _
    | succ j =>
      simp only [List.set_cons_succ, List.getD_cons_succ, List.map_cons,
        List.sum_cons]
      exact Nat.add_le_add_left (ih j) _

lemma sum_map_length_set_tail_lt {K V : Type} :
    ∀ (snaps : List (List (K × Operation V))) (i : Nat),
    snaps.getD i [] ≠ [] →
    ((snaps.set i ((snaps.getD i []).tail)).map List.length).sum <
      (snaps.map List.length).sum := by
  intro snaps
  induction snaps with
  | nil => intro i h; simp at h
  | cons s t ih =>
    intro i h
    cases i with
    | zero =>
      simp only [List.getD_cons_zero] at h
      simp only [List.set_cons_zero, List.getD_cons_zero, List.map_cons,
        List.sum_cons]
      have : s.tail.length < s.length := by
        rw [List.length_tail]
        exact Nat.sub_lt (List.length_pos.mpr h) Nat.one_pos
      omega
    | succ j =>
      simp only [List.getD_cons_succ] at h
      simp only [List.set_cons_succ, List.getD_cons_succ, List.map_cons,
        List.sum_cons]
      have := ih j h
      omega

lemma advanceOne_size_le {K V : Type} (db : List (K × V))
    (snaps : List (List (K × Operation V))) (loc : DataLocation) :
    totalSize (advanceOne db snaps loc).1 (advanceOne db snaps loc).2 ≤
      totalSize db snaps := by
  cases loc with
  | db =>
    simp only [advanceOne, totalSize]
    exact Nat.add_le_add_right (by simp [List.length_tail]) _
  | snapshot i =>
    simp only [advanceOne, totalSize]
    exact Nat.add_le_add_left (sum_map_length_set_tail snaps i) _

lemma advanceAll_size_le {K : Type} {V : Type} :
    ∀ (locs : List (DataLocation × K)) (db : List (K × V))
      (snaps : List (List (K × Operation V))),
    totalSize (advanceAll db snaps locs).1 (advanceAll db snaps locs).2 ≤
      totalSize db snaps := by
  intro locs
  induction locs with
  | nil => intro db snaps; simp [advanceAll]
  | cons e locs ih =>
    intro db snaps
    have hstep : advanceAll db snaps (e :: locs) =
        advanceAll (advanceOne db snaps e.1).1 (advanceOne db snaps e.1).2
          locs := by
      simp [advanceAll, List.foldl_cons]
    rw [hstep]
    calc totalSize _ _ ≤
        totalSize (advanceOne db snaps e.1).1 (advanceOne db snaps e.1).2 :=
          ih (advanceOne db snaps e.1).1 (advanceOne db snaps e.1).2
      _ ≤ totalSize db snaps := advanceOne_size_le db snaps e.1

lemma mergePass_size_lt {K V : Type} [LinearOrder K]
    {db : List (K × V)} {snaps : List (List (K × Operation V))}
    {e : Option (K × V)} {db' : List (K × V)}
    {snaps' : List (List (K × Operation V))}
    (h : mergePass db snaps = some (e, db', snaps')) :
    totalSize db' snaps' < totalSize db snaps := by
  have hle := advanceAll_size_le
    (collectMaxAux 0 (dbHeadLoc db) snaps).dropLast db snaps
  unfold mergePass at h
  cases hadv : advanceAll db snaps
      (collectMaxAux 0 (dbHeadLoc db) snaps).dropLast with
  | mk db1 snaps1 =>
    rw [hadv] at hle h
    simp only at hle
    dsimp only at h
    split at h
    · exact absurd h (by simp)
    · split at h
      · -- authoritative source is the store
        split at h
        · rename_i k v hhead
          rw [Option.some.injEq, Prod.mk.injEq, Prod.mk.injEq] at h
          obtain ⟨-, hdb, hsnaps⟩ := h
          subst hdb
          subst hsnaps
          have hne : db1 ≠ [] := by
            intro hnil
            rw [hnil] at hhead
            simp at hhead
          have hpos := List.length_pos.mpr hne
          simp only [totalSize] at hle ⊢
          rw [List.length_tail]
          omega
        · exact absurd h (by simp)
      · -- authoritative source is a snapshot iterator
        rename_i i hlast2
        split at h
        · rename_i k op hhead
          have hne : snaps1.getD i [] ≠ [] := by
            intro hnil
            rw [hnil] at hhead
            simp at hhead
          have hlt := sum_map_length_set_tail_lt snaps1 i hne
          have hfin : totalSize db' snaps' < totalSize db1 snaps1 := by
            split at h <;>
              (rw [Option.some.injEq, Prod.mk.injEq, Prod.mk.injEq] at h
               obtain ⟨-, hdb, hsnaps⟩ := h
               subst hdb
               subst hsnaps
               simp only [totalSize]
               omega)
          exact lt_of_lt_of_le hfin hle
        · exact absurd h (by simp)

lemma collectMaxAux_all_empty {K V : Type} [LinearOrder K] :
    ∀ (snaps : List (List (K × Operation V))) (i : Nat)
      (acc : List (DataLocation × K)),
    (∀ s ∈ snaps, s = []) → collectMaxAux i acc snaps = acc := by
  intro snaps
  induction snaps with
  | nil => intro i acc _; rfl
  | cons s t ih =>
    intro i acc h
    have hs : s = [] := h s (by simp)
    subst hs
    simpa [collectMaxAux] using ih (i + 1) acc (fun q hq => h q (by simp [hq]))

lemma mergePass_all_empty {K V : Type} [LinearOrder K]
    {db : List (K × V)} {snaps : List (List (K × Operation V))}
    (hdb : db = []) (hsnaps : ∀ s ∈ snaps, s = []) :
    mergePass db snaps = none := by
  subst hdb
  unfold mergePass
  rw [collectMaxAux_all_empty snaps 0 _ hsnaps]
  rfl

lemma mergeNextF_isSome {K V : Type} [LinearOrder K] :
    ∀ (n : Nat) (db : List (K × V)) (snaps : List (List (K × Operation V))),
    totalSize db snaps < n → (mergeNextF n db snaps).isSome = true := by
  intro n
  induction n with
  | zero => intro db snaps h; omega
  | succ n ih =>
    intro db snaps h
    unfold mergeNextF
    cases hp : mergePass db snaps with
    | none => rfl
    | some r =>
      obtain ⟨emit, st⟩ := r
      cases emit with
      | some kv => rfl
      | none =>
        have hlt : totalSize st.1 st.2 < totalSize db snaps :=
          mergePass_size_lt (by rw [hp])
        exact ih st.1 st.2 (by omega)

lemma mergeNextF_fuel_irrel {K V : Type} [LinearOrder K] :
    ∀ (n m : Nat) (db : List (K × V)) (snaps : List (List (K × Operation V))),
    totalSize db snaps < n → totalSize db snaps < m →
    mergeNextF n db snaps = mergeNextF m db snaps := by
  intro n
  induction n with
  | zero => intro m db snaps h; omega
  | succ n ih =>
    intro m db snaps hn hm
    cases m with
    | zero => omega
    | succ m =>
      unfold mergeNextF
      cases hp : mergePass db snaps with
      | none => rfl
      | some r =>
        obtain ⟨emit, st⟩ := r
        cases emit with
        | some kv => rfl
        | none =>
          have hlt : totalSize st.1 st.2 < totalSize db snaps :=
            mergePass_size_lt (by rw [hp])
          exact ih m st.1 st.2 (by omega) (by omega)

/-- Claim C10: every call to `SnapshotManagerIter::next` terminates — each
pass of its loop consumes at least one element from some source, so with
fuel one more than the total number of remaining `(key, operation)` pairs
across the store iterator and all snapshot iterators, `next` returns (and
any larger fuel gives the same result); once all sources are exhausted it
returns `None`. -/
theorem merge_iter_next_terminates {K V : Type} [LinearOrder K]
    (db : List (K × V)) (snaps : List (List (K × Operation V))) :
    (∃ r, mergeNextF (totalSize db snaps + 1) db snaps = some r) ∧
    (∀ fuel, totalSize db snaps < fuel →
      mergeNextF fuel db snaps = mergeNextF (totalSize db snaps + 1) db snaps) ∧
    (db = [] → (∀ s ∈ snaps, s = []) → mergeNextF 1 db snaps = some none) := by
  refine ⟨?_, ?_, ?_⟩
  · have := mergeNextF_isSome (totalSize db snaps + 1) db snaps (by omega)
    cases h : mergeNextF (totalSize db snaps + 1) db snaps with
    | none => rw [h] at this; simp at this
    | some r => exact ⟨r, rfl⟩
  · intro fuel hf
    exact mergeNextF_fuel_irrel fuel (totalSize db snaps + 1) db snaps hf
      (by omega)
  · intro hdb hsnaps
    unfold mergeNextF
    rw [mergePass_all_empty hdb hsnaps]

/-- Witness for C10. -/
theorem merge_iter_next_terminates_witness :
    (∃ r, mergeNextF
      (totalSize [((2 : Nat), (5 : Nat))] [[(1, Operation.delete)]] + 1)
      [((2 : Nat), (5 : Nat))] [[(1, Operation.delete)]] = some r) ∧
    mergeNextF 1 ([] : List (Nat × Nat))
      ([[]] : List (List (Nat × Operation Nat))) = some none :=
  ⟨(merge_iter_next_terminates [((2 : Nat), (5 : Nat))]
      [[(1, Operation.delete)]]).1,
   (merge_iter_next_terminates [] [[]]).2.2 rfl (by simp)⟩

/-! ## Characterization of the N-way merge (C2) -/

/-- The key at the head of a source, if any. -/
def headKey? {K α : Type} (s : List (K × α)) : Option K :=
  s.head?.map Prod.fst

/-- Pop the head of a source exactly when its head key is `M`. -/
def popIf {K α : Type} [DecidableEq K] (M : K) (s : List (K × α)) :
    List (K × α) :=
  if headKey? s = some M then s.tail else s

/-- The peeked heads of the snapshot iterators, with their locations,
starting at index `i`. -/
def headsFrom {K V : Type} (i : Nat) :
    List (List (K × Operation V)) → List (DataLocation × K)
  | [] => []
  | s :: rest =>
    (match s.head? with
     | some (k, _) => [(DataLocation.snapshot i, k)]
     | none => []) ++ headsFrom (i + 1) rest

/-- The greatest key among a list of located heads. -/
def keysMax {K : Type} [LinearOrder K] (hl : List (DataLocation × K)) :
    WithBot K :=
  (hl.map Prod.snd).maximum

/-- The located heads whose key attains the maximum, in scan order. -/
def argmaxKeyed {K : Type} [LinearOrder K] (hl : List (DataLocation × K)) :
    List (DataLocation × K) :=
  hl.filter (fun x => decide ((x.2 : WithBot K) = keysMax hl))

/-- The resolution the spec ascribes to the merged view: among the sources
mentioning `k`, the highest-priority one is authoritative — the snapshot
iterators are ordered oldest first, so the scan goes from the *last*
snapshot (nearest ancestor) backwards and falls through to the store —
with a `Put` yielding the value and a `Delete` yielding nothing. -/
def resolveKey {K V : Type} [DecidableEq K] (db : List (K × V))
    (snaps : List (List (K × Operation V))) (k : K) : Option V :=
  match snaps.reverse.findSome? (fun s => entLookup s k) with
  | some (Operation.put v) => some v
  | some Operation.delete => none
  | none => entLookup db k

/-- Strictly descending keys, the well-formedness of every descending
source and of the merged output. -/
def descending {K α : Type} [LT K] (l : List (K × α)) : Prop :=
  l.Chain' (fun a b => b.1 < a.1)

instance descendingDecidable {K α : Type} [LinearOrder K]
    (l : List (K × α)) : Decidable (descending l) :=
  inferInstanceAs (Decidable (l.Chain' (fun (a b : K × α) => b.1 < a.1)))

/-- The indices of the snapshot iterators whose head key is `M`. -/
def jlistOf {K V : Type} [DecidableEq K] (M : K)
    (snaps : List (List (K × Operation V))) : List Nat :=
  (List.range snaps.length).filter
    (fun j => decide (headKey? (snaps.getD j []) = some M))

/-- Pop the head of the source at index `j`. -/
def popAt {K V : Type} (sn : List (List (K × Operation V))) (j : Nat) :
    List (List (K × Operation V)) :=
  sn.set j ((sn.getD j []).tail)

lemma maximum_append {α : Type} [LinearOrder α] :
    ∀ (l1 l2 : List α), (l1 ++ l2).maximum = max l1.maximum l2.maximum := by
  intro l1 l2
  induction l1 with
  | nil => simp [List.maximum_nil, max_eq_right bot_le]
  | cons a t ih =>
    rw [List.cons_append, List.maximum_cons, List.maximum_cons, ih, max_assoc]

lemma argmaxKeyed_self {K : Type} [LinearOrder K]
    {acc : List (DataLocation × K)}
    (h : ∀ x ∈ acc, (x.2 : WithBot K) = keysMax acc) :
    argmaxKeyed acc = acc :=
  List.filter_eq_self.mpr (fun x hx => by simp [h x hx])

lemma keysMax_append {K : Type} [LinearOrder K]
    (l1 l2 : List (DataLocation × K)) :
    keysMax (l1 ++ l2) = max (keysMax l1) (keysMax l2) := by
  simp [keysMax, maximum_append]

lemma keysMax_singleton {K : Type} [LinearOrder K] (x : DataLocation × K) :
    keysMax [x] = (x.2 : WithBot K) := by
  unfold keysMax
  simp [List.maximum_singleton]

lemma le_keysMax_of_mem {K : Type} [LinearOrder K]
    {hl : List (DataLocation × K)} {x : DataLocation × K} (hx : x ∈ hl) :
    (x.2 : WithBot K) ≤ keysMax hl :=
  List.le_maximum_of_mem' (List.mem_map_of_mem Prod.snd hx)

lemma argmaxKeyed_append_left_small {K : Type} [LinearOrder K]
    {pre post : List (DataLocation × K)}
    (h : ∀ x ∈ pre, (x.2 : WithBot K) < keysMax post) :
    argmaxKeyed (pre ++ post) = argmaxKeyed post := by
  have hmax : keysMax (pre ++ post) = keysMax post := by
    rw [keysMax_append]
    refine max_eq_right ?_
    refine List.maximum_le_of_forall_le ?_
    intro a ha
    obtain ⟨x, hx, rfl⟩ := List.mem_map.mp ha
    exact le_of_lt (h x hx)
  unfold argmaxKeyed
  rw [hmax, List.filter_append]
  have hpre : pre.filter (fun x => decide ((x.2 : WithBot K) = keysMax post)) = [] := by
    refine List.filter_eq_nil_iff.mpr ?_
    intro x hx
    simp only [decide_eq_true_eq]
    exact ne_of_lt (h x hx)
  rw [hpre, List.nil_append]

lemma argmaxKeyed_middle_small {K : Type} [LinearOrder K]
    {pre post : List (DataLocation × K)} {x : DataLocation × K}
    {y : DataLocation × K} (hy : y ∈ pre) (hxy : x.2 < y.2) :
    argmaxKeyed (pre ++ x :: post) = argmaxKeyed (pre ++ post) := by
  have hx_le : (x.2 : WithBot K) < keysMax pre :=
    lt_of_lt_of_le (by exact_mod_cast hxy) (le_keysMax_of_mem hy)
  have hmax : keysMax (pre ++ x :: post) = keysMax (pre ++ post) := by
    rw [keysMax_append, keysMax_append]
    have hcons : keysMax (x :: post) = max (x.2 : WithBot K) (keysMax post) := by
      simp [keysMax, List.maximum_cons]
    rw [hcons, max_comm (x.2 : WithBot K) (keysMax post), ← max_assoc]
    exact max_eq_left (le_trans (le_of_lt hx_le) (le_max_left _ _))
  unfold argmaxKeyed
  rw [hmax, List.filter_append, List.filter_append, List.filter_cons]
  have hxne : ¬ ((x.2 : WithBot K) = keysMax (pre ++ post)) := by
    intro hc
    have h1 : (x.2 : WithBot K) < keysMax (pre ++ post) := by
      rw [keysMax_append]
      exact lt_of_lt_of_le hx_le (le_max_left _ _)
    rw [hc] at h1
    exact lt_irrefl _ h1
  simp [hxne]

lemma collectMaxAux_eq {K V : Type} [LinearOrder K] :
    ∀ (snaps : List (List (K × Operation V))) (i : Nat)
      (acc : List (DataLocation × K)),
    (∀ x ∈ acc, (x.2 : WithBot K) = keysMax acc) →
    collectMaxAux i acc snaps = argmaxKeyed (acc ++ headsFrom i snaps) := by
  intro snaps
  induction snaps with
  | nil =>
    intro i acc hacc
    rw [collectMaxAux, headsFrom, List.append_nil, argmaxKeyed_self hacc]
  | cons s rest ih =>
    intro i acc hacc
    rw [collectMaxAux]
    cases hs : s.head? with
    | none =>
      simp only [hs]
      rw [ih (i + 1) acc hacc, headsFrom, hs]
      rfl
    | some e =>
      obtain ⟨k, op⟩ := e
      simp only [hs]
      have hhf : headsFrom i (s :: rest) =
          (DataLocation.snapshot i, k) :: headsFrom (i + 1) rest := by
        rw [headsFrom, hs]
        rfl
      cases hacc0 : acc.head? with
      | none =>
        have haccnil : acc = [] := List.head?_eq_none_iff.mp hacc0
        subst haccnil
        rw [ih (i + 1) [(DataLocation.snapshot i, k)] (by
          intro x hx
          simp only [List.mem_singleton] at hx
          subst hx
          rw [keysMax_singleton])]
        rw [hhf]
        rfl
      | some e0 =>
        obtain ⟨loc0, maxKey⟩ := e0
        have hmem0 : (loc0, maxKey) ∈ acc :=
          List.mem_of_mem_head? (by rw [hacc0]; rfl)
        have hmk : (maxKey : WithBot K) = keysMax acc := hacc (loc0, maxKey) hmem0
        simp only [hacc0]
        rw [hhf]
        by_cases h1 : maxKey < k
        · rw [if_pos h1]
          rw [ih (i + 1) [(DataLocation.snapshot i, k)] (by
            intro x hx
            simp only [List.mem_singleton] at hx
            subst hx
            rw [keysMax_singleton])]
          have : argmaxKeyed ([(DataLocation.snapshot i, k)] ++
              headsFrom (i + 1) rest) =
              argmaxKeyed ((DataLocation.snapshot i, k) ::
                headsFrom (i + 1) rest) := rfl
          rw [this]
          refine (argmaxKeyed_append_left_small ?_).symm
          intro x hx
          rw [hacc x hx, ← hmk]
          have hk_le : (k : WithBot K) ≤
              keysMax ((DataLocation.snapshot i, k) :: headsFrom (i + 1) rest) :=
            le_keysMax_of_mem
              (x := (DataLocation.snapshot i, k)) (List.mem_cons_self _ _)
          exact lt_of_lt_of_le (by exact_mod_cast h1) hk_le
        · rw [if_neg h1]
          by_cases h2 : k = maxKey
          · rw [if_pos h2]
            rw [ih (i + 1) (acc ++ [(DataLocation.snapshot i, k)]) (by
              intro x hx
              have hmax : keysMax (acc ++ [(DataLocation.snapshot i, k)]) =
                  keysMax acc := by
                rw [keysMax_append, keysMax_singleton]
                simp only
                rw [h2, hmk, max_self]
              rw [hmax]
              rcases List.mem_append.mp hx with hx1 | hx2
              · exact hacc x hx1
              · simp only [List.mem_singleton] at hx2
                subst hx2
                simp only
                rw [h2, hmk])]
            rw [List.append_assoc]
            rfl
          · rw [if_neg h2]
            rw [ih (i + 1) acc hacc]
            have hklt : k < maxKey := lt_of_le_of_ne (not_lt.mp h1) h2
            exact (argmaxKeyed_middle_small hmem0 hklt).symm

lemma jlistOf_cons {K V : Type} [DecidableEq K] (M : K)
    (s : List (K × Operation V)) (rest : List (List (K × Operation V))) :
    jlistOf M (s :: rest) =
      (if headKey? s = some M then [0] else []) ++
        (jlistOf M rest).map Nat.succ := by
  unfold jlistOf
  rw [List.length_cons, List.range_succ_eq_map, List.filter_cons]
  have h2 : List.filter
      (fun j => decide (headKey? ((s :: rest).getD j []) = some M))
      (List.map Nat.succ (List.range rest.length)) =
      List.map Nat.succ (List.filter
        (fun j => decide (headKey? (rest.getD j []) = some M))
        (List.range rest.length)) := by
    rw [List.filter_map]
    congr 1
  by_cases h : headKey? s = some M
  · have hd : headKey? ((s :: rest).getD 0 []) = some M := h
    simp [hd, h]
    simpa [List.getD] using h2
  · have hd : ¬ headKey? ((s :: rest).getD 0 []) = some M := h
    simp [hd, h]
    simpa [List.getD] using h2

lemma foldl_popAt_map_succ {K V : Type} :
    ∀ (jl : List Nat) (s : List (K × Operation V))
      (rest : List (List (K × Operation V))),
    (jl.map Nat.succ).foldl popAt (s :: rest) = s :: jl.foldl popAt rest := by
  intro jl
  induction jl with
  | nil => intro s rest; rfl
  | cons j t ih =>
    intro s rest
    have hstep : popAt (s :: rest) (Nat.succ j) = s :: popAt rest j := by
      simp [popAt, List.set_cons_succ, List.getD_cons_succ]
    simp only [List.map_cons, List.foldl_cons, hstep]
    exact ih s (popAt rest j)

lemma foldl_popAt_jlistOf {K V : Type} [DecidableEq K] (M : K) :
    ∀ (snaps : List (List (K × Operation V))),
    (jlistOf M snaps).foldl popAt snaps = snaps.map (popIf M) := by
  intro snaps
  induction snaps with
  | nil => rfl
  | cons s rest ih =>
    rw [jlistOf_cons, List.map_cons]
    by_cases h : headKey? s = some M
    · rw [if_pos h]
      have hpop0 : popAt (s :: rest) 0 = s.tail :: rest := by
        simp [popAt]
      simp only [List.singleton_append, List.foldl_cons, hpop0]
      rw [foldl_popAt_map_succ, ih]
      simp [popIf, h]
    · rw [if_neg h]
      simp only [List.nil_append]
      rw [foldl_popAt_map_succ, ih]
      simp [popIf, h]

lemma map_popIf_of_jlistOf_nil {K V : Type} [DecidableEq K] {M : K} :
    ∀ {snaps : List (List (K × Operation V))},
    jlistOf M snaps = [] → snaps.map (popIf M) = snaps := by
  intro snaps
  induction snaps with
  | nil => intro _; rfl
  | cons s rest ih =>
    intro h
    rw [jlistOf_cons] at h
    rcases List.append_eq_nil.mp h with ⟨h1, h2⟩
    have hh : ¬ headKey? s = some M := by
      intro hc
      rw [if_pos hc] at h1
      cases h1
    have hr : jlistOf M rest = [] := by
      cases hj : jlistOf M rest with
      | nil => rfl
      | cons a t => rw [hj] at h2; cases h2
    rw [List.map_cons, ih hr]
    simp [popIf, hh]

lemma getD_foldl_popAt_not_mem {K V : Type} :
    ∀ (jl : List Nat) (snaps : List (List (K × Operation V))) (j : Nat),
    j ∉ jl → (jl.foldl popAt snaps).getD j [] = snaps.getD j [] := by
  intro jl
  induction jl with
  | nil => intro snaps j _; rfl
  | cons i t ih =>
    intro snaps j hj
    simp only [List.mem_cons] at hj
    push_neg at hj
    rw [List.foldl_cons, ih (popAt snaps i) j hj.2]
    unfold popAt
    unfold List.getD
    rw [List.get?_set_ne _ _ (fun h => hj.1 h.symm)]

lemma headsFrom_filter {K V : Type} [LinearOrder K] (M : K) :
    ∀ (snaps : List (List (K × Operation V))) (i : Nat),
    (headsFrom i snaps).filter (fun x => decide (x.2 = M)) =
      (jlistOf M snaps).map (fun j => (DataLocation.snapshot (i + j), M)) := by
  intro snaps
  induction snaps with
  | nil => intro i; rfl
  | cons s rest ih =>
    intro i
    rw [headsFrom, List.filter_append, jlistOf_cons, List.map_append, ih (i + 1)]
    have hmaps : (List.map Nat.succ (jlistOf M rest)).map
        (fun j => (DataLocation.snapshot (i + j), M)) =
        (jlistOf M rest).map
          (fun j => (DataLocation.snapshot (i + 1 + j), M)) := by
      rw [List.map_map]
      refine List.map_congr_left ?_
      intro j _
      simp only [Function.comp_apply]
      have harith : i + Nat.succ j = i + 1 + j := by omega
      rw [harith]
    rw [hmaps]
    congr 1
    cases hs : s.head? with
    | none =>
      have hh : ¬ headKey? s = some M := by simp [headKey?, hs]
      simp [hh]
    | some e =>
      obtain ⟨k, op⟩ := e
      have hh : headKey? s = some k := by simp [headKey?, hs]
      by_cases hk : k = M
      · subst hk
        simp [hs, hh, List.filter_cons]
      · have hh2 : ¬ headKey? s = some M := by
          rw [hh]
          simp [hk]
        simp [hs, hh2, List.filter_cons, hk]

lemma dbHeadLoc_filter {K V : Type} [LinearOrder K] (M : K)
    (db : List (K × V)) :
    (dbHeadLoc db).filter (fun x => decide (x.2 = M)) =
      if headKey? db = some M then [(DataLocation.db, M)] else [] := by
  cases db with
  | nil => simp [dbHeadLoc, headKey?]
  | cons e t =>
    obtain ⟨k, v⟩ := e
    by_cases hk : k = M
    · subst hk
      simp [dbHeadLoc, headKey?, List.filter_cons]
    · simp [dbHeadLoc, headKey?, List.filter_cons, hk]

lemma argmaxKeyed_eq_filter {K : Type} [LinearOrder K]
    {hl : List (DataLocation × K)} {M : K}
    (hM : keysMax hl = (M : WithBot K)) :
    argmaxKeyed hl = hl.filter (fun x => decide (x.2 = M)) := by
  unfold argmaxKeyed
  refine List.filter_congr ?_
  intro x _
  rw [hM]
  simp [WithBot.coe_inj]

lemma dbHeadLoc_invariant {K V : Type} [LinearOrder K] (db : List (K × V)) :
    ∀ x ∈ dbHeadLoc db, (x.2 : WithBot K) = keysMax (dbHeadLoc db) := by
  cases db with
  | nil => intro x hx; cases hx
  | cons e t =>
    obtain ⟨k, v⟩ := e
    intro x hx
    have : dbHeadLoc ((k, v) :: t) = [(DataLocation.db, k)] := rfl
    rw [this] at hx ⊢
    simp only [List.mem_singleton] at hx
    subst hx
    rw [keysMax_singleton]

/-- Closed form of the `max_values` collection: the store head (when it
attains the maximum `M`) followed by the snapshot locations with head key
`M` in ascending index order. -/
lemma maxValues_eq {K V : Type} [LinearOrder K] {db : List (K × V)}
    {snaps : List (List (K × Operation V))} {M : K}
    (hM : keysMax (dbHeadLoc db ++ headsFrom 0 snaps) = (M : WithBot K)) :
    collectMaxAux 0 (dbHeadLoc db) snaps =
      (if headKey? db = some M then [(DataLocation.db, M)] else []) ++
        (jlistOf M snaps).map (fun j => (DataLocation.snapshot j, M)) := by
  rw [collectMaxAux_eq snaps 0 (dbHeadLoc db) (dbHeadLoc_invariant db),
    argmaxKeyed_eq_filter hM, List.filter_append, dbHeadLoc_filter,
    headsFrom_filter]
  congr 1
  refine List.map_congr_left ?_
  intro j _
  simp

lemma descending_lt_of_head {K α : Type} [LinearOrder K] {k : K} {a : α}
    {t : List (K × α)} (h : descending ((k, a) :: t)) :
    ∀ e ∈ t, e.1 < k := by
  haveI : IsTrans (K × α) (fun x y => y.1 < x.1) :=
    ⟨fun _ _ _ h1 h2 => lt_trans h2 h1⟩
  have hp := List.chain'_iff_pairwise.mp h
  exact fun e he => (List.pairwise_cons.mp hp).1 e he

lemma descending_le_head {K α : Type} [LinearOrder K] {s : List (K × α)}
    {hk : K} (hs : descending s) (hh : headKey? s = some hk) :
    ∀ e ∈ s, e.1 ≤ hk := by
  cases s with
  | nil => intro e he; cases he
  | cons e0 t =>
    obtain ⟨k, a⟩ := e0
    have hk0 : k = hk := by
      simp only [headKey?, List.head?_cons, Option.map_some'] at hh
      exact Option.some.inj hh
    subst hk0
    intro e he
    rcases List.mem_cons.mp he with rfl | he'
    · exact le_refl _
    · exact le_of_lt (descending_lt_of_head hs e he')

lemma entLookup_eq_none_of_forall_lt {K α : Type} [LinearOrder K] {M : K}
    {l : List (K × α)} (h : ∀ e ∈ l, e.1 < M) : entLookup l M = none :=
  entLookup_eq_none_of_not_mem (by
    intro hmem
    obtain ⟨e, he, hk⟩ := List.mem_map.mp hmem
    exact absurd hk (ne_of_lt (h e he)))

/-- In a strictly descending source whose keys are all `≤ M`, the key `M`
can only be mentioned at the head. -/
lemma entLookup_top {K α : Type} [LinearOrder K] {M : K}
    {s : List (K × α)} (hs : descending s) (hb : ∀ e ∈ s, e.1 ≤ M) :
    entLookup s M =
      if headKey? s = some M then s.head?.map Prod.snd else none := by
  cases s with
  | nil => rfl
  | cons e t =>
    obtain ⟨k, a⟩ := e
    by_cases hk : k = M
    · subst hk
      rw [entLookup_cons, if_pos rfl]
      have : headKey? ((k, a) :: t) = some k := rfl
      rw [this, if_pos rfl]
      rfl
    · rw [entLookup_cons, if_neg hk]
      have hhk : headKey? ((k, a) :: t) = some k := rfl
      have hne : ¬ headKey? ((k, a) :: t) = some M := by
        rw [hhk]
        simp [hk]
      rw [if_neg hne]
      refine entLookup_eq_none_of_forall_lt ?_
      intro e he
      have h1 : e.1 < k := descending_lt_of_head hs e he
      have h2 : k ≤ M := hb (k, a) (by simp)
      exact lt_of_lt_of_le h1 (lt_of_le_of_ne h2 hk).le

lemma mem_jlistOf {K V : Type} [DecidableEq K] {M : K}
    {snaps : List (List (K × Operation V))} {j : Nat}
    (h : j ∈ jlistOf M snaps) :
    headKey? (snaps.getD j []) = some M ∧ j < snaps.length := by
  unfold jlistOf at h
  have := List.mem_filter.mp h
  exact ⟨by simpa using this.2, List.mem_range.mp this.1⟩

lemma findSome?_append {α β : Type} (l1 l2 : List α) (f : α → Option β) :
    (l1 ++ l2).findSome? f =
      match l1.findSome? f with
      | some b => some b
      | none => l2.findSome? f := by
  induction l1 with
  | nil => rfl
  | cons a t ih =>
    rw [List.cons_append, List.findSome?_cons, List.findSome?_cons]
    cases f a with
    | none => exact ih
    | some b => rfl

lemma findSome?_congr {α β : Type} {f g : α → Option β} :
    ∀ {l : List α}, (∀ a ∈ l, f a = g a) →
    l.findSome? f = l.findSome? g := by
  intro l
  induction l with
  | nil => intro _; rfl
  | cons a t ih =>
    intro h
    rw [List.findSome?_cons, List.findSome?_cons, h a (by simp)]
    cases g a with
    | none => exact ih (fun x hx => h x (by simp [hx]))
    | some b => rfl

/-- The reverse scan of the snapshot sources at the maximal key `M` finds
exactly the head operation of the highest-indexed source whose head key is
`M`. -/
lemma findSome?_reverse_at_max {K V : Type} [LinearOrder K] {M : K} :
    ∀ (snaps : List (List (K × Operation V))),
    (∀ s ∈ snaps, descending s) →
    (∀ s ∈ snaps, ∀ e ∈ s, e.1 ≤ M) →
    snaps.reverse.findSome? (fun s => entLookup s M) =
      ((jlistOf M snaps).getLast?).bind
        (fun j => (snaps.getD j []).head?.map Prod.snd) := by
  intro snaps
  induction snaps with
  | nil => intro _ _; rfl
  | cons s rest ih =>
    intro hsort hb
    have hrec := ih (fun x hx => hsort x (by simp [hx]))
      (fun x hx => hb x (by simp [hx]))
    rw [List.reverse_cons, findSome?_append, jlistOf_cons]
    cases hjr : (jlistOf M rest).getLast? with
    | some jlast =>
      have hne : (jlistOf M rest).map Nat.succ ≠ [] := by
        intro hnil
        have : jlistOf M rest = [] := by
          cases hx : jlistOf M rest with
          | nil => rfl
          | cons a t => rw [hx] at hnil; cases hnil
        rw [this] at hjr
        cases hjr
      rw [List.getLast?_append_of_ne_nil _ hne, List.getLast?_map, hjr]
      have hmem := List.mem_of_mem_getLast? hjr
      obtain ⟨hhead, hlen⟩ := mem_jlistOf hmem
      obtain ⟨op, hop⟩ : ∃ op, (rest.getD jlast []).head? = some (M, op) := by
        cases hh : (rest.getD jlast []).head? with
        | none => rw [headKey?, hh] at hhead; cases hhead
        | some e =>
          obtain ⟨k, op⟩ := e
          rw [headKey?, hh] at hhead
          simp only [Option.map_some'] at hhead
          have : k = M := Option.some.inj hhead
          subst this
          exact ⟨op, rfl⟩
      rw [hjr] at hrec
      have hrec2 : rest.reverse.findSome? (fun s => entLookup s M) =
          some op := by
        rw [hrec]
        show (rest.getD jlast []).head?.map Prod.snd = some op
        rw [hop]
        rfl
      have hgd : (s :: rest).getD (Nat.succ jlast) [] = rest.getD jlast [] := by
        simp [List.getD_cons_succ]
      simp only [List.getD, List.get?_eq_getElem?] at hop hgd
      simp [hrec2, hgd, hop]
    | none =>
      have hjnil : jlistOf M rest = [] := List.getLast?_eq_none_iff.mp hjr
      rw [hjnil] at hrec
      simp only [List.map_nil, Option.bind] at hrec
      rw [hrec]
      have hsingle : List.findSome? (fun s => entLookup s M) [s] =
          entLookup s M := by
        rw [List.findSome?_cons]
        cases entLookup s M <;> rfl
      simp only [hsingle, hjnil, List.map_nil, List.append_nil]
      rw [entLookup_top (hsort s (by simp)) (hb s (by simp))]
      by_cases hw : headKey? s = some M
      · rw [if_pos hw]
        have : (if headKey? s = some M then [0] else []) = [0] := if_pos hw
        rw [this]
        rfl
      · rw [if_neg hw]
        have : (if headKey? s = some M then [0] else []) =
            ([] : List Nat) := if_neg hw
        rw [this]
        rfl

lemma headKey_le_keysMax_headsFrom {K V : Type} [LinearOrder K] {hk : K} :
    ∀ (snaps : List (List (K × Operation V))) (i : Nat)
      (s : List (K × Operation V)),
    s ∈ snaps → headKey? s = some hk →
    (hk : WithBot K) ≤ keysMax (headsFrom i snaps) := by
  intro snaps
  induction snaps with
  | nil => intro i s hs; cases hs
  | cons s0 rest ih =>
    intro i s hs hh
    have hsplit : headsFrom i (s0 :: rest) =
        (match s0.head? with
         | some (k, _) => [(DataLocation.snapshot i, k)]
         | none => []) ++ headsFrom (i + 1) rest := rfl
    rcases List.mem_cons.mp hs with rfl | hs'
    · obtain ⟨e, he⟩ : ∃ e, s.head? = some e := by
        cases he : s.head? with
        | none => rw [headKey?, he] at hh; cases hh
        | some e => exact ⟨e, rfl⟩
      obtain ⟨k, op⟩ := e
      have hk0 : k = hk := by
        rw [headKey?, he] at hh
        simp only [Option.map_some'] at hh
        exact Option.some.inj hh
      subst hk0
      rw [hsplit, he, keysMax_append]
      exact le_trans (by rw [keysMax_singleton]) (le_max_left _ _)
    · rw [hsplit, keysMax_append]
      exact le_trans (ih (i + 1) s hs' hh) (le_max_right _ _)

lemma db_keys_le_max {K V : Type} [LinearOrder K] {db : List (K × V)}
    {snaps : List (List (K × Operation V))} {M : K}
    (hdb : descending db)
    (hM : keysMax (dbHeadLoc db ++ headsFrom 0 snaps) = (M : WithBot K)) :
    ∀ e ∈ db, e.1 ≤ M := by
  intro e he
  obtain ⟨hk, hh⟩ : ∃ hk, headKey? db = some hk := by
    cases db with
    | nil => cases he
    | cons e0 t => exact ⟨e0.1, rfl⟩
  have h1 : e.1 ≤ hk := descending_le_head hdb hh e he
  have h2 : (hk : WithBot K) ≤ keysMax (dbHeadLoc db ++ headsFrom 0 snaps) := by
    rw [keysMax_append]
    refine le_trans ?_ (le_max_left _ _)
    cases db with
    | nil => cases he
    | cons e0 t =>
      have hd : dbHeadLoc (e0 :: t) = [(DataLocation.db, e0.1)] := by
        obtain ⟨k, v⟩ := e0
        rfl
      have hk0 : hk = e0.1 := by
        obtain ⟨k, v⟩ := e0
        simp only [headKey?, List.head?_cons, Option.map_some'] at hh
        exact (Option.some.inj hh).symm
      rw [hd, keysMax_singleton, hk0]
  rw [hM] at h2
  exact le_trans h1 (by exact_mod_cast h2)

lemma snaps_keys_le_max {K V : Type} [LinearOrder K] {db : List (K × V)}
    {snaps : List (List (K × Operation V))} {M : K}
    (hsn : ∀ s ∈ snaps, descending s)
    (hM : keysMax (dbHeadLoc db ++ headsFrom 0 snaps) = (M : WithBot K)) :
    ∀ s ∈ snaps, ∀ e ∈ s, e.1 ≤ M := by
  intro s hs e he
  obtain ⟨hk, hh⟩ : ∃ hk, headKey? s = some hk := by
    cases s with
    | nil => cases he
    | cons e0 t => exact ⟨e0.1, rfl⟩
  have h1 : e.1 ≤ hk := descending_le_head (hsn s hs) hh e he
  have h2 : (hk : WithBot K) ≤ keysMax (dbHeadLoc db ++ headsFrom 0 snaps) := by
    rw [keysMax_append]
    exact le_trans (headKey_le_keysMax_headsFrom snaps 0 s hs hh)
      (le_max_right _ _)
  rw [hM] at h2
  exact le_trans h1 (by exact_mod_cast h2)

lemma headsFrom_mem_index {K V : Type} :
    ∀ (snaps : List (List (K × Operation V))) (i : Nat)
      (x : DataLocation × K),
    x ∈ headsFrom i snaps →
    ∃ j, j < snaps.length ∧ headKey? (snaps.getD j []) = some x.2 := by
  intro snaps
  induction snaps with
  | nil => intro i x hx; cases hx
  | cons s rest ih =>
    intro i x hx
    have hsplit : headsFrom i (s :: rest) =
        (match s.head? with
         | some (k, _) => [(DataLocation.snapshot i, k)]
         | none => []) ++ headsFrom (i + 1) rest := rfl
    rw [hsplit] at hx
    rcases List.mem_append.mp hx with hx1 | hx2
    · cases hh : s.head? with
      | none => rw [hh] at hx1; cases hx1
      | some e =>
        obtain ⟨k, op⟩ := e
        rw [hh] at hx1
        simp only [List.mem_singleton] at hx1
        subst hx1
        exact ⟨0, by simp, by simp [headKey?, hh]⟩
    · obtain ⟨j, hj1, hj2⟩ := ih (i + 1) x hx2
      refine ⟨j + 1, by simpa using Nat.succ_lt_succ hj1, ?_⟩
      simpa [List.getD_cons_succ] using hj2

lemma max_attained {K V : Type} [LinearOrder K] {db : List (K × V)}
    {snaps : List (List (K × Operation V))} {M : K}
    (hM : keysMax (dbHeadLoc db ++ headsFrom 0 snaps) = (M : WithBot K)) :
    headKey? db = some M ∨ jlistOf M snaps ≠ [] := by
  have hmem : M ∈ (dbHeadLoc db ++ headsFrom 0 snaps).map Prod.snd :=
    List.maximum_mem hM
  obtain ⟨x, hx, hxk⟩ := List.mem_map.mp hmem
  rcases List.mem_append.mp hx with hx1 | hx2
  · left
    cases db with
    | nil => cases hx1
    | cons e t =>
      obtain ⟨k, v⟩ := e
      have hd : dbHeadLoc ((k, v) :: t) = [(DataLocation.db, k)] := rfl
      rw [hd] at hx1
      simp only [List.mem_singleton] at hx1
      subst hx1
      simp only at hxk
      subst hxk
      rfl
  · right
    obtain ⟨j, hj1, hj2⟩ := headsFrom_mem_index snaps 0 x hx2
    have : j ∈ jlistOf M snaps := by
      unfold jlistOf
      refine List.mem_filter.mpr ⟨List.mem_range.mpr hj1, ?_⟩
      rw [hj2, hxk]
      simp
    intro hnil
    rw [hnil] at this
    cases this

lemma advanceAll_snaps_map {K V : Type} {M : K} :
    ∀ (jl : List Nat) (db : List (K × V))
      (snaps : List (List (K × Operation V))),
    advanceAll db snaps (jl.map (fun j => (DataLocation.snapshot j, M))) =
      (db, jl.foldl popAt snaps) := by
  intro jl
  induction jl with
  | nil => intro db snaps; rfl
  | cons j t ih =>
    intro db snaps
    exact ih db (popAt snaps j)

lemma nodup_jlistOf {K V : Type} [DecidableEq K] (M : K)
    (snaps : List (List (K × Operation V))) : (jlistOf M snaps).Nodup :=
  (List.nodup_range _).filter _

lemma getLast?_not_mem_dropLast {α : Type} {l : List α} {a : α}
    (h : l.Nodup) (hl : l.getLast? = some a) : a ∉ l.dropLast := by
  have hne : l ≠ [] := by intro hh; rw [hh] at hl; cases hl
  have hsplit := List.dropLast_append_getLast hne
  have hga : l.getLast hne = a := by
    have h2 := List.getLast?_eq_getLast l hne
    rw [h2] at hl
    exact Option.some.inj hl
  intro hmem
  rw [← hsplit] at h
  have hd := List.disjoint_of_nodup_append h
  exact hd hmem (by rw [hga]; simp)

lemma dropLast_append_getLast?_eq {α : Type} {l : List α} {a : α}
    (hl : l.getLast? = some a) : l.dropLast ++ [a] = l := by
  have hne : l ≠ [] := by intro hh; rw [hh] at hl; cases hl
  have hga : l.getLast hne = a := by
    have h2 := List.getLast?_eq_getLast l hne
    rw [h2] at hl
    exact Option.some.inj hl
  rw [← hga]
  exact List.dropLast_append_getLast hne

/-- Closed form of one merge pass at a state whose greatest head key is
`M`: the pass emits `(M, value)` when the authoritative (highest-priority)
source mentioning `M` holds a `Put` and nothing when it holds `Delete` —
exactly `resolveKey` at `M` — and consumes the head of every source whose
head key is `M`. -/
lemma mergePass_spec {K V : Type} [LinearOrder K] {db : List (K × V)}
    {snaps : List (List (K × Operation V))} {M : K}
    (hdb : descending db) (hsn : ∀ s ∈ snaps, descending s)
    (hM : keysMax (dbHeadLoc db ++ headsFrom 0 snaps) = (M : WithBot K)) :
    mergePass db snaps =
      some ((resolveKey db snaps M).map (fun v => (M, v)),
        popIf M db, snaps.map (popIf M)) := by
  have hbsn := snaps_keys_le_max hsn hM
  have hscan := findSome?_reverse_at_max snaps hsn hbsn
  have hmv := maxValues_eq hM
  unfold mergePass
  rw [hmv]
  cases hjr : (jlistOf M snaps).getLast? with
  | some jlast =>
    have hmapne : (jlistOf M snaps).map
        (fun j => (DataLocation.snapshot j, M)) ≠ [] := by
      intro h
      rw [List.map_eq_nil_iff.mp h] at hjr
      cases hjr
    rw [List.getLast?_append_of_ne_nil _ hmapne, List.getLast?_map, hjr]
    obtain ⟨hhead, hlen⟩ := mem_jlistOf (List.mem_of_mem_getLast? hjr)
    obtain ⟨op, hop⟩ : ∃ op, (snaps.getD jlast []).head? = some (M, op) := by
      cases hh : (snaps.getD jlast []).head? with
      | none => rw [headKey?, hh] at hhead; cases hhead
      | some e =>
        obtain ⟨k, op⟩ := e
        rw [headKey?, hh] at hhead
        simp only [Option.map_some'] at hhead
        have : k = M := Option.some.inj hhead
        subst this
        exact ⟨op, rfl⟩
    simp only [Option.map_some']
    rw [List.dropLast_append_of_ne_nil _ hmapne, ← List.map_dropLast]
    have hnotmem : jlast ∉ (jlistOf M snaps).dropLast :=
      getLast?_not_mem_dropLast (nodup_jlistOf M snaps) hjr
    have hgdmid : ((jlistOf M snaps).dropLast.foldl popAt snaps).getD jlast [] =
        snaps.getD jlast [] :=
      getD_foldl_popAt_not_mem _ snaps jlast hnotmem
    have hsetmid : popAt ((jlistOf M snaps).dropLast.foldl popAt snaps) jlast =
        snaps.map (popIf M) := by
      have h2 : (jlistOf M snaps).dropLast ++ [jlast] = jlistOf M snaps :=
        dropLast_append_getLast?_eq hjr
      calc popAt ((jlistOf M snaps).dropLast.foldl popAt snaps) jlast
          = ((jlistOf M snaps).dropLast ++ [jlast]).foldl popAt snaps := by
            rw [List.foldl_append]
            rfl
        _ = (jlistOf M snaps).foldl popAt snaps := by rw [h2]
        _ = snaps.map (popIf M) := foldl_popAt_jlistOf M snaps
    have hsetmid2 : ((jlistOf M snaps).dropLast.foldl popAt snaps).set jlast
        ((snaps.getD jlast []).tail) = snaps.map (popIf M) := by
      rw [← hgdmid]
      exact hsetmid
    have hx : ((jlistOf M snaps).getLast?).bind
        (fun j => (snaps.getD j []).head?.map Prod.snd) = some op := by
      rw [hjr]
      show (snaps.getD jlast []).head?.map Prod.snd = some op
      rw [hop]
      rfl
    by_cases hw : headKey? db = some M
    · rw [if_pos hw]
      have hadv : advanceAll db snaps ((DataLocation.db, M) ::
          (jlistOf M snaps).dropLast.map
            (fun j => (DataLocation.snapshot j, M))) =
          (db.tail, (jlistOf M snaps).dropLast.foldl popAt snaps) := by
        have h1 : advanceAll db snaps ((DataLocation.db, M) ::
            (jlistOf M snaps).dropLast.map
              (fun j => (DataLocation.snapshot j, M))) =
            advanceAll db.tail snaps
              ((jlistOf M snaps).dropLast.map
                (fun j => (DataLocation.snapshot j, M))) := rfl
        rw [h1, advanceAll_snaps_map]
      rw [List.singleton_append, hadv]
      simp only [hgdmid, hop]
      have hpop : popIf M db = db.tail := by rw [popIf, if_pos hw]
      cases op with
      | put v =>
        have hres : resolveKey db snaps M = some v := by
          unfold resolveKey
          rw [hscan, hx]
        rw [hres]
        simp only [Option.map_some']
        rw [hsetmid2, hpop]
      | delete =>
        have hres : resolveKey db snaps M = none := by
          unfold resolveKey
          rw [hscan, hx]
        rw [hres]
        simp only [Option.map_none']
        rw [hsetmid2, hpop]
    · rw [if_neg hw]
      rw [List.nil_append, advanceAll_snaps_map]
      simp only [hgdmid, hop]
      have hpop : popIf M db = db := by rw [popIf, if_neg hw]
      cases op with
      | put v =>
        have hres : resolveKey db snaps M = some v := by
          unfold resolveKey
          rw [hscan, hx]
        rw [hres]
        simp only [Option.map_some']
        rw [hsetmid2, hpop]
      | delete =>
        have hres : resolveKey db snaps M = none := by
          unfold resolveKey
          rw [hscan, hx]
        rw [hres]
        simp only [Option.map_none']
        rw [hsetmid2, hpop]
  | none =>
    have hjnil : jlistOf M snaps = [] := List.getLast?_eq_none_iff.mp hjr
    rw [hjnil]
    simp only [List.map_nil, List.append_nil]
    by_cases hw : headKey? db = some M
    · rw [if_pos hw]
      obtain ⟨v, hv⟩ : ∃ v, db.head? = some (M, v) := by
        cases hh : db.head? with
        | none => rw [headKey?, hh] at hw; cases hw
        | some e =>
          obtain ⟨k, v⟩ := e
          rw [headKey?, hh] at hw
          simp only [Option.map_some'] at hw
          have : k = M := Option.some.inj hw
          subst this
          exact ⟨v, rfl⟩
      have hscan0 : snaps.reverse.findSome? (fun s => entLookup s M) = none := by
        rw [hscan, hjr]
        rfl
      have hres : resolveKey db snaps M = some v := by
        unfold resolveKey
        rw [hscan0]
        rw [entLookup_top hdb (db_keys_le_max hdb hM), if_pos hw, hv]
        rfl
      have hpop : popIf M db = db.tail := by rw [popIf, if_pos hw]
      have hsnaps : snaps.map (popIf M) = snaps :=
        map_popIf_of_jlistOf_nil hjnil
      show (match db.head? with
        | some (k, v) => some (some (k, v), db.tail, snaps)
        | none => none) = _
      rw [hv, hres]
      simp only [Option.map_some']
      rw [← hpop, hsnaps]
    · exfalso
      rcases max_attained hM with h | h
      · exact hw h
      · exact h hjnil

lemma entLookup_popIf_ne {K α : Type} [LinearOrder K] {M x : K}
    (hne : x ≠ M) (s : List (K × α)) :
    entLookup (popIf M s) x = entLookup s x := by
  unfold popIf
  by_cases h : headKey? s = some M
  · rw [if_pos h]
    cases s with
    | nil => rfl
    | cons e t =>
      obtain ⟨k, a⟩ := e
      have hk : k = M := by
        simp only [headKey?, List.head?_cons, Option.map_some'] at h
        exact Option.some.inj h
      subst hk
      have ht : ((k, a) :: t).tail = t := rfl
      rw [ht, entLookup_cons, if_neg (fun hh => hne hh.symm)]
  · rw [if_neg h]

lemma resolveKey_popIf_ne {K V : Type} [LinearOrder K] {M x : K}
    (hne : x ≠ M) (db : List (K × V))
    (snaps : List (List (K × Operation V))) :
    resolveKey (popIf M db) (snaps.map (popIf M)) x =
      resolveKey db snaps x := by
  unfold resolveKey
  have h1 : (snaps.map (popIf M)).reverse.findSome?
      (fun s => entLookup s x) =
      snaps.reverse.findSome? (fun s => entLookup s x) := by
    rw [List.reverse_map, List.findSome?_map]
    exact findSome?_congr (fun s _ => entLookup_popIf_ne hne s)
  rw [h1, entLookup_popIf_ne hne db]

lemma keys_popIf_lt {K α : Type} [LinearOrder K] {M : K}
    {s : List (K × α)} (hs : descending s) (hb : ∀ e ∈ s, e.1 ≤ M) :
    ∀ e ∈ popIf M s, e.1 < M := by
  unfold popIf
  by_cases h : headKey? s = some M
  · rw [if_pos h]
    cases s with
    | nil => intro e he; cases he
    | cons e0 t =>
      obtain ⟨k, a⟩ := e0
      have hk : k = M := by
        simp only [headKey?, List.head?_cons, Option.map_some'] at h
        exact Option.some.inj h
      subst hk
      intro e he
      exact descending_lt_of_head hs e he
  · rw [if_neg h]
    intro e he
    cases s with
    | nil => cases he
    | cons e0 t =>
      obtain ⟨k, a⟩ := e0
      have hhk : headKey? ((k, a) :: t) = some k := rfl
      have hkM : k ≠ M := by
        intro hc
        rw [hhk, hc] at h
        exact h rfl
      have h1 : e.1 ≤ k := descending_le_head hs hhk e he
      have h2 : k < M := lt_of_le_of_ne (hb (k, a) (by simp)) hkM
      exact lt_of_le_of_lt h1 h2

lemma resolveKey_none_of_lt {K V : Type} [LinearOrder K] {M : K}
    {db : List (K × V)} {snaps : List (List (K × Operation V))}
    (hd : ∀ e ∈ db, e.1 < M) (hs : ∀ s ∈ snaps, ∀ e ∈ s, e.1 < M) :
    resolveKey db snaps M = none := by
  unfold resolveKey
  have h1 : snaps.reverse.findSome? (fun s => entLookup s M) = none := by
    refine List.findSome?_eq_none_iff.mpr ?_
    intro s hsmem
    exact entLookup_eq_none_of_forall_lt (hs s (List.mem_reverse.mp hsmem))
  rw [h1]
  exact entLookup_eq_none_of_forall_lt hd

lemma resolveKey_some_lt {K V : Type} [LinearOrder K] {M k : K} {v : V}
    {db : List (K × V)} {snaps : List (List (K × Operation V))}
    (hd : ∀ e ∈ db, e.1 < M) (hs : ∀ s ∈ snaps, ∀ e ∈ s, e.1 < M)
    (h : resolveKey db snaps k = some v) : k < M := by
  unfold resolveKey at h
  cases hf : snaps.reverse.findSome? (fun s => entLookup s k) with
  | none =>
    rw [hf] at h
    exact hd _ (entLookup_some_mem h)
  | some op =>
    obtain ⟨s, hsmem, hes⟩ := List.exists_of_findSome?_eq_some hf
    exact hs s (List.mem_reverse.mp hsmem) _ (entLookup_some_mem hes)

lemma descending_popIf {K α : Type} [LinearOrder K] (M : K)
    (s : List (K × α)) (hs : descending s) : descending (popIf M s) := by
  unfold popIf
  by_cases h : headKey? s = some M
  · rw [if_pos h]
    exact List.Chain'.tail hs
  · rw [if_neg h]
    exact hs

lemma headsFrom_nil_all {K V : Type} :
    ∀ (snaps : List (List (K × Operation V))) (i : Nat),
    headsFrom i snaps = [] → ∀ s ∈ snaps, s = [] := by
  intro snaps
  induction snaps with
  | nil => intro i _ s hs; cases hs
  | cons s0 rest ih =>
    intro i h s hs
    rw [headsFrom] at h
    obtain ⟨h1, h2⟩ := List.append_eq_nil.mp h
    rcases List.mem_cons.mp hs with rfl | hs'
    · cases hh : s.head? with
      | none => exact List.head?_eq_none_iff.mp hh
      | some e =>
        obtain ⟨k, op⟩ := e
        rw [hh] at h1
        cases h1
    · exact ih (i + 1) h2 s hs'

lemma keysMax_bot_empty {K V : Type} [LinearOrder K] {db : List (K × V)}
    {snaps : List (List (K × Operation V))}
    (h : keysMax (dbHeadLoc db ++ headsFrom 0 snaps) = ⊥) :
    db = [] ∧ ∀ s ∈ snaps, s = [] := by
  have hl : dbHeadLoc db ++ headsFrom 0 snaps = [] := by
    have hm := List.maximum_eq_bot.mp h
    exact List.map_eq_nil_iff.mp hm
  obtain ⟨h1, h2⟩ := List.append_eq_nil.mp hl
  constructor
  · cases db with
    | nil => rfl
    | cons e t =>
      obtain ⟨k, v⟩ := e
      have : dbHeadLoc ((k, v) :: t) = [(DataLocation.db, k)] := rfl
      rw [this] at h1
      cases h1
  · exact headsFrom_nil_all snaps 0 h2

lemma resolveKey_empty {K V : Type} [LinearOrder K] {db : List (K × V)}
    {snaps : List (List (K × Operation V))}
    (hdb : db = []) (hsn : ∀ s ∈ snaps, s = []) (k : K) :
    resolveKey db snaps k = none := by
  subst hdb
  unfold resolveKey
  have h1 : snaps.reverse.findSome? (fun s => entLookup s k) = none := by
    refine List.findSome?_eq_none_iff.mpr ?_
    intro s hsmem
    rw [hsn s (List.mem_reverse.mp hsmem)]
    rfl
  rw [h1]
  rfl

/-- The fully drained merge, characterized: strictly descending keys, and
membership exactly per `resolveKey`. -/
lemma mergeRunF_spec {K V : Type} [LinearOrder K] :
    ∀ (n : Nat) (db : List (K × V))
      (snaps : List (List (K × Operation V))),
    totalSize db snaps < n → descending db → (∀ s ∈ snaps, descending s) →
    (mergeRunF n db snaps).Chain' (fun a b => b.1 < a.1) ∧
    (∀ k v, ((k, v) ∈ mergeRunF n db snaps ↔ resolveKey db snaps k = some v)) := by
  intro n
  induction n with
  | zero => intro db snaps h _ _; omega
  | succ n ih =>
    intro db snaps hsize hdb hsn
    cases hm : keysMax (dbHeadLoc db ++ headsFrom 0 snaps) with
    | bot =>
      obtain ⟨hdbe, hsne⟩ := keysMax_bot_empty hm
      have hp : mergePass db snaps = none := mergePass_all_empty hdbe hsne
      have hrun : mergeRunF (n + 1) db snaps = [] := by
        conv_lhs => unfold mergeRunF
        rw [hp]
      rw [hrun]
      refine ⟨List.chain'_nil, ?_⟩
      intro k v
      simp only [List.not_mem_nil, false_iff]
      rw [resolveKey_empty hdbe hsne]
      simp
    | coe M =>
      have hp := mergePass_spec hdb hsn hm
      have hsz := mergePass_size_lt hp
      have hsize' : totalSize (popIf M db) (snaps.map (popIf M)) < n := by
        omega
      have hdb' : descending (popIf M db) := descending_popIf M db hdb
      have hsn' : ∀ s ∈ snaps.map (popIf M), descending s := by
        intro s hs
        obtain ⟨s0, hs0, rfl⟩ := List.mem_map.mp hs
        exact descending_popIf M s0 (hsn s0 hs0)
      have hdl : ∀ e ∈ popIf M db, e.1 < M :=
        keys_popIf_lt hdb (db_keys_le_max hdb hm)
      have hsl : ∀ s ∈ snaps.map (popIf M), ∀ e ∈ s, e.1 < M := by
        intro s hs
        obtain ⟨s0, hs0, rfl⟩ := List.mem_map.mp hs
        exact keys_popIf_lt (hsn s0 hs0) (snaps_keys_le_max hsn hm s0 hs0)
      obtain ⟨ihc, ihm⟩ :=
        ih (popIf M db) (snaps.map (popIf M)) hsize' hdb' hsn'
      cases hres : resolveKey db snaps M with
      | none =>
        rw [hres] at hp
        simp only [Option.map_none'] at hp
        have hrun : mergeRunF (n + 1) db snaps =
            mergeRunF n (popIf M db) (snaps.map (popIf M)) := by
          conv_lhs => unfold mergeRunF
          rw [hp]
        rw [hrun]
        refine ⟨ihc, ?_⟩
        intro k v
        rw [ihm k v]
        by_cases hk : k = M
        · subst hk
          rw [resolveKey_none_of_lt hdl hsl, hres]
        · rw [resolveKey_popIf_ne hk]
      | some v0 =>
        rw [hres] at hp
        simp only [Option.map_some'] at hp
        have hrun : mergeRunF (n + 1) db snaps =
            (M, v0) :: mergeRunF n (popIf M db) (snaps.map (popIf M)) := by
          conv_lhs => unfold mergeRunF
          rw [hp]
        rw [hrun]
        constructor
        · rw [List.chain'_cons']
          refine ⟨?_, ihc⟩
          intro y hy
          have hymem : y ∈ mergeRunF n (popIf M db) (snaps.map (popIf M)) :=
            List.mem_of_mem_head? hy
          obtain ⟨yk, yv⟩ := y
          exact resolveKey_some_lt hdl hsl ((ihm yk yv).mp hymem)
        · intro k v
          rw [List.mem_cons]
          by_cases hk : k = M
          · subst hk
            rw [hres]
            constructor
            · rintro (heq | hmem)
              · have : v = v0 := (Prod.mk.injEq _ _ _ _ ▸ heq).2
                rw [this]
              · exfalso
                have h1 := (ihm k v).mp hmem
                rw [resolveKey_none_of_lt hdl hsl] at h1
                cases h1
            · intro hv
              left
              rw [Option.some.inj hv]
          · have hne : ¬ ((k, v) = (M, v0)) := by
              intro hc
              exact hk (congrArg Prod.fst hc)
            rw [or_iff_right hne, ihm k v, resolveKey_popIf_ne hk]

/-- Claim C2: for a snapshot id whose ancestor chain `l` is entirely
registered (with well-formed, strictly-descending sources),
`SnapshotManager::iter` succeeds and its output has strictly descending
keys — hence at most one entry per distinct key; a key/value pair is
emitted exactly when the highest-priority source mentioning the key
(nearest ancestor over older ancestors over the store, the store lowest)
records `Put` of that value (`resolveKey`), so keys whose highest-priority
source records `Delete`, and unmentioned keys, are omitted. -/
theorem iter_merge_characterization {K V : Type} [LinearOrder K]
    (m : SnapshotManager K V) (id : SnapshotId) (l : List SnapshotId)
    (fuel : Nat)
    (hchain : isChain m.to_parent id l)
    (hreg : ∀ p ∈ l, (entLookup m.snapshots p).isSome = true)
    (hfuel : l.length < fuel)
    (hdb : descending m.db.entries)
    (hsorted : ∀ p s, entLookup m.snapshots p = some s →
      descending s.entries) :
    ∃ out, m.iter fuel id = some (.ok out) ∧
      out.Chain' (fun a b => b.1 < a.1) ∧
      (∀ k v, ((k, v) ∈ out ↔
        resolveKey m.db.raw_iter
          (((l.filterMap (entLookup m.snapshots)).reverse).map
            FrozenDbSnapshot.iter) k = some v)) := by
  have hsrc := iterSources_eq m l id fuel hchain hfuel
  rw [if_pos hreg] at hsrc
  have hiter : m.iter fuel id = some (.ok
      (mergeRunF (totalSize m.db.raw_iter
        (((l.filterMap (entLookup m.snapshots)).reverse).map
          FrozenDbSnapshot.iter) + 1)
        m.db.raw_iter
        (((l.filterMap (entLookup m.snapshots)).reverse).map
          FrozenDbSnapshot.iter))) := by
    unfold SnapshotManager.iter
    rw [hsrc]
  have hsn : ∀ s ∈ ((l.filterMap (entLookup m.snapshots)).reverse).map
      FrozenDbSnapshot.iter, descending s := by
    intro s hs
    obtain ⟨s0, hs0, rfl⟩ := List.mem_map.mp hs
    have hs1 : s0 ∈ l.filterMap (entLookup m.snapshots) :=
      List.mem_reverse.mp hs0
    obtain ⟨p, _, hp2⟩ := List.mem_filterMap.mp hs1
    exact hsorted p s0 hp2
  obtain ⟨hchain', hmem⟩ := mergeRunF_spec
    (totalSize m.db.raw_iter
      (((l.filterMap (entLookup m.snapshots)).reverse).map
        FrozenDbSnapshot.iter) + 1)
    m.db.raw_iter
    (((l.filterMap (entLookup m.snapshots)).reverse).map
      FrozenDbSnapshot.iter)
    (by omega) hdb hsn
  exact ⟨_, hiter, hchain', hmem⟩

/-- Witness for C2. -/
theorem iter_merge_characterization_witness :
    (let m : SnapshotManager Nat Nat :=
      { db := ⟨[(2, 7), (1, 1)], true⟩
        snapshots := [(1, ⟨[(3, .put 5), (1, .delete)]⟩)]
        to_parent := [(2, 1)] }
    ∃ out, m.iter 2 2 = some (.ok out) ∧
      out.Chain' (fun a b => b.1 < a.1) ∧
      (∀ k v, ((k, v) ∈ out ↔
        resolveKey m.db.raw_iter
          ((([1].filterMap (entLookup m.snapshots)).reverse).map
            FrozenDbSnapshot.iter) k = some v))) :=
  iter_merge_characterization _ 2 [1] 2 (by decide) (by decide) (by decide)
    (by unfold descending; norm_num [List.chain'_cons, List.chain'_singleton])
    (by
      intro p s h
      have hmem := entLookup_some_mem h
      simp only [List.mem_singleton] at hmem
      injection hmem with h1 h2
      subst h2
      unfold descending
      norm_num [List.chain'_cons, List.chain'_singleton])

end Sovereign
